import Mathlib

/-!
# Shallow embedding of `packages/gatsby/src/schema/resolvers.js`

The pagination engine (`paginate`), the aggregation resolvers (`distinct`,
`group`), the selection-set walk (`getFieldNodeByNameInSelectionSet`) and the
link resolvers (`link`, `fileByPath`) are translated into pure functions. The
resolvers that talk to the store return, next to their value, the store
operations they called and the counters after the call; a raised exception is
`Except.error`.

Conventions of the embedding:

* JavaScript `undefined` for an optional argument is `none`.
* `skip` and `limit` are GraphQL `Int` arguments, so they are integers; on
  integers of that size the double-precision quotient inside `Math.ceil` rounds
  to the same integer as the exact quotient, so `Math.ceil (a / b)` is the
  integer ceiling of the exact quotient.
* An absent array element (`arr[i]` out of range, which JavaScript evaluates to
  `undefined`) is `none`.
-/

namespace Resolvers

/-! ## Pagination engine -/

/-- The pagination arguments `{ skip, limit }`; `none` is an argument that was
not passed (`undefined`). -/
structure PaginationArgs where
  skip : Option Int
  limit : Option Int
  deriving DecidableEq

/-- One element of `edges`: `{ node, next, previous }`. -/
structure Edge (α : Type) where
  node : α
  next : Option α
  previous : Option α
  deriving DecidableEq

/-- The `pageInfo` object. -/
structure PageInfo where
  currentPage : Int
  hasPreviousPage : Bool
  hasNextPage : Bool
  itemCount : Nat
  pageCount : Int
  perPage : Option Int
  deriving DecidableEq

/-- The object returned by `paginate`. -/
structure Page (α : Type) where
  totalCount : Nat
  edges : List (Edge α)
  nodes : List α
  pageInfo : PageInfo
  deriving DecidableEq

/-- The value `Math.ceil(a / b)` for integers `a` and `b ≠ 0`: the ceiling of the
exact quotient, computed as minus the floor of `(-a) / b` (`ceilDiv_eq_ceil`
compares it with the ceiling of the rational quotient). -/
def ceilDiv (a b : Int) : Int := -(Int.fdiv (-a) b)

/-- The call `Array.prototype.slice(start, end)` on integer arguments; `stop = none` is
an `end` that is `undefined`. Negative indices count from the end. -/
def slice {α : Type} (xs : List α) (start : Int) (stop : Option Int) : List α :=
  let len : Int := xs.length
  let k : Int := if start < 0 then max (len + start) 0 else min start len
  let final : Int :=
    match stop with
    | none => len
    | some e => if e < 0 then max (len + e) 0 else min e len
  (xs.drop k.toNat).take (final - k).toNat

/-- Property read `arr[i]` for an integer `i`: `none` (JavaScript `undefined`)
when `i` is not an index of the array. -/
def index {α : Type} (arr : List α) (i : Int) : Option α :=
  if i < 0 then none else arr[i.toNat]?

/-- The expression `limit && skip + limit`, used as the `end` of the slice:
`undefined` when `limit` is `undefined`, `0` when `limit` is `0`, and
`skip + limit` otherwise. -/
def sliceEnd (skip : Int) : Option Int → Option Int
  | none => none
  | some l => if l = 0 then some 0 else some (skip + l)

/-- The function `paginate(results = [], { skip = 0, limit })`. `results = none` is a
`results` that is `null` or `undefined`; both become the empty array. A `limit`
that is `undefined` or `0` is falsy, a `skip` that is `0` is falsy. -/
def paginate {α : Type} (results : Option (List α)) (args : PaginationArgs) : Page α :=
  let skip : Int := args.skip.getD 0
  let limit : Option Int := args.limit
  let results : List α := results.getD []
  let count : Nat := results.length
  let items : List α := slice results skip (sliceEnd skip limit)
  let pageCount : Int :=
    match limit with
    | some l =>
      if l ≠ 0 then ceilDiv skip l + ceilDiv ((count : Int) - skip) l
      else if skip ≠ 0 then 2 else 1
    | none => if skip ≠ 0 then 2 else 1
  let currentPage : Int :=
    match limit with
    | some l => if l ≠ 0 then ceilDiv skip l + 1 else if skip ≠ 0 then 2 else 1
    | none => if skip ≠ 0 then 2 else 1
  let hasPreviousPage : Bool := decide (currentPage > 1)
  -- `skip + undefined` is `NaN`, and `NaN < count` is `false`
  let hasNextPage : Bool :=
    match limit with
    | some l => decide (skip + l < (count : Int))
    | none => false
  { totalCount := count
    edges := items.enum.map fun p =>
      { node := p.2
        next := index items ((p.1 : Int) + 1)
        previous := index items ((p.1 : Int) - 1) }
    nodes := items
    pageInfo :=
      { currentPage := currentPage
        hasPreviousPage := hasPreviousPage
        hasNextPage := hasNextPage
        itemCount := items.length
        pageCount := pageCount
        perPage := limit } }

/-! ## JavaScript values -/

/-- The JavaScript values a node field can hold. Objects carry a reference
(their identity); a `Date` also carries the strings that `toISOString()` and
`toString()` return for it, which the runtime computes (the `Date` is a valid
one, so `toISOString()` returns). Numbers are the integers, printed in decimal
as JavaScript prints them below `10^21`. Strings are sequences of Unicode
characters, compared by their UTF-16 code units. -/
inductive JSValue where
  | undefined
  | null
  | bool (b : Bool)
  | num (n : Int)
  | str (s : String)
  | date (ref : Nat) (iso : String) (text : String)
  | arr (ref : Nat) (elems : List JSValue)
  | obj (ref : Nat)
  deriving Inhabited

namespace JSValue

/-- The test `value != null` is false for `null` and `undefined` only. -/
def isNullish : JSValue → Bool
  | undefined => true
  | null => true
  | _ => false

/-- Conversion to boolean: `undefined`, `null`, `false`, `0` and the empty string are falsy. -/
def toBoolean : JSValue → Bool
  | undefined => false
  | null => false
  | bool b => b
  | num n => n != 0
  | str s => s != ""
  | _ => true

/-- The expression `a || b`. -/
def or (a b : JSValue) : JSValue := if a.toBoolean then a else b

/-- Test `Array.isArray(value)`. -/
def isArray : JSValue → Bool
  | arr _ _ => true
  | _ => false

/-- The comparison used by `Set`: primitives by value, objects by identity. -/
def sameValueZero : JSValue → JSValue → Bool
  | undefined, undefined => true
  | null, null => true
  | bool a, bool b => a == b
  | num a, num b => a == b
  | str a, str b => a == b
  | date r _ _, date r' _ _ => r == r'
  | arr r _, arr r' _ => r == r'
  | obj r, obj r' => r == r'
  | _, _ => false

mutual
/-- Conversion to string. An array is the comma-joined conversion of its elements,
where `null` and `undefined` elements give the empty string. -/
def toStr : JSValue → String
  | undefined => "undefined"
  | null => "null"
  | bool b => if b then "true" else "false"
  | num n => toString n
  | str s => s
  | date _ _ text => text
  | arr _ elems => joinStr elems
  | obj _ => "[object Object]"
/-- The body of `Array.prototype.join` with the separator `,`. -/
def joinStr : List JSValue → String
  | [] => ""
  | [v] => if v.isNullish then "" else toStr v
  | v :: w :: rest => (if v.isNullish then "" else toStr v) ++ "," ++ joinStr (w :: rest)
end

end JSValue

/-! ## String order of `Array.prototype.sort` -/

/-- The UTF-16 code units of a character: one unit below `0x10000`, otherwise a
surrogate pair. -/
def utf16Char (c : Char) : List Nat :=
  if c.toNat < 0x10000 then [c.toNat]
  else [0xD800 + (c.toNat - 0x10000) / 0x400, 0xDC00 + (c.toNat - 0x10000) % 0x400]

/-- The UTF-16 code units of a string, which is what JavaScript compares. -/
def utf16 (s : String) : List Nat := s.toList.flatMap utf16Char

/-- Lexicographic "less than" on code unit sequences. -/
def unitsLt : List Nat → List Nat → Bool
  | [], [] => false
  | [], _ :: _ => true
  | _ :: _, [] => false
  | a :: as, b :: bs => if a < b then true else if b < a then false else unitsLt as bs

/-- The string comparison `a < b` of JavaScript. -/
def strLt (a b : String) : Bool := unitsLt (utf16 a) (utf16 b)

/-- The order in which the default comparator of `sort()` leaves two strings:
`a` may stand before `b` when `b < a` is false. -/
def strLE (a b : String) : Prop := strLt b a = false

instance : DecidableRel strLE := fun a b => inferInstanceAs (Decidable (strLt b a = false))

/-- The default comparator of `sort()` on two values, as "may stand before":
`undefined` goes last, every other pair is compared by string conversion. -/
def sortBefore (x y : JSValue) : Bool :=
  match x, y with
  | _, .undefined => true
  | .undefined, _ => false
  | x, y => !strLt y.toStr x.toStr

/-- The order in which `sort()` without a comparator leaves two values. -/
def sortLE (x y : JSValue) : Prop := sortBefore x y = true

instance : DecidableRel sortLE := fun x y => inferInstanceAs (Decidable (sortBefore x y = true))

/-! ## Aggregation resolvers -/

/-- The array `Array.from(new Set(values))`: the values in order of first
occurrence, without the later values that are the same (`sameValueZero`) as an
earlier one. -/
def setFrom (values : List JSValue) : List JSValue :=
  values.foldl (fun acc v => if acc.any (fun w => JSValue.sameValueZero w v) then acc else acc ++ [v]) []

/-- The call `acc.concat(value)`: an array argument is spread, any other value is appended. -/
def concat (acc : List JSValue) : JSValue → List JSValue
  | .arr _ elems => acc ++ elems
  | v => acc ++ [v]

/-- The expression `value instanceof Date ? value.toISOString() : value`. -/
def normalizeDate : JSValue → JSValue
  | .date _ iso _ => .str iso
  | v => v

/-- The value both resolvers aggregate over:
`getValueAt(node, "__gatsby_resolved." + field) || getValueAt(node, field)`.
The helper `getValueAt` of `utils/get-value-at` is a parameter. -/
def extract {Node : Type} (getValueAt : Node → String → JSValue) (node : Node) (field : String) :
    JSValue :=
  JSValue.or (getValueAt node ("__gatsby_resolved." ++ field)) (getValueAt node field)

/-- The resolver `distinct(source, { field })`, where `source` is a page of a connection. -/
def distinct {Node : Type} (getValueAt : Node → String → JSValue) (source : Page Node)
    (field : String) : List JSValue :=
  let values : List JSValue := source.edges.foldl (fun acc e =>
    let value := extract getValueAt e.node field
    if !value.isNullish then concat acc (normalizeDate value) else acc) []
  (setFrom values).insertionSort sortLE

/-- The arguments of `group`: `field` and the pagination arguments. -/
structure GroupArgs where
  field : String
  skip : Option Int
  limit : Option Int
  deriving DecidableEq

/-- One element of the result of `group`: a page with `field` and `fieldValue`. -/
structure Group (α : Type) extends Page α where
  field : String
  fieldValue : String
  deriving DecidableEq

/-- The accumulator object of `group`, created by `Object.create(null)`: its own
properties, in order of creation. -/
abbrev Grouped (Node : Type) := List (String × List Node)

/-- Property read `acc[key]`; `none` is `undefined`. -/
def Grouped.get {Node : Type} (acc : Grouped Node) (key : String) : Option (List Node) :=
  (acc.find? (fun p => p.1 == key)).map Prod.snd

/-- Property write `acc[key] = nodes`: replaces the value of an own property, or
creates the property after the existing ones. -/
def Grouped.set {Node : Type} (acc : Grouped Node) (key : String) (nodes : List Node) :
    Grouped Node :=
  if acc.any (fun p => p.1 == key) then
    acc.map (fun p => if p.1 == key then (p.1, nodes) else p)
  else acc ++ [(key, nodes)]

/-- The property key a group value is stored under: the ISO string of a `Date`,
and the string conversion of any other value. -/
def groupKey : JSValue → String
  | .date _ iso _ => iso
  | v => v.toStr

/-- The values of a node that `group` files it under:
`(Array.isArray(value) ? value : [value]).filter(value => value != null)`. -/
def groupValues : JSValue → List JSValue
  | .arr _ elems => elems.filter (fun v => !v.isNullish)
  | v => [v].filter (fun v => !v.isNullish)

/-- The first `reduce` of `group`: the nodes accumulated per key. -/
def groupedResults {Node : Type} (getValueAt : Node → String → JSValue) (source : Page Node)
    (field : String) : Grouped Node :=
  source.edges.foldl (fun acc e =>
    (groupValues (extract getValueAt e.node field)).foldl (fun acc value =>
      let key := groupKey value
      Grouped.set acc key ((Grouped.get acc key).getD [] ++ [e.node])) acc) []

/-- The resolver `group(source, args)`. The keys of the accumulator are pairwise
different strings, so the sorted order does not depend on the order in which
`Object.keys` lists them. -/
def group {Node : Type} (getValueAt : Node → String → JSValue) (source : Page Node)
    (args : GroupArgs) : List (Group Node) :=
  let grouped := groupedResults getValueAt source args.field
  ((grouped.map Prod.fst).insertionSort strLE).map fun fieldValue =>
    { toPage := paginate (Grouped.get grouped fieldValue) ⟨args.skip, args.limit⟩
      field := args.field
      fieldValue := fieldValue }

/-! ## Words of the specification for `group` -/

/-- The memberships of a result set: one pair (key, node) for every non-null
value extracted from a node, an array-valued field giving one pair per element,
in result-set order. -/
def memberships {Node : Type} (getValueAt : Node → String → JSValue) (source : Page Node)
    (field : String) : List (String × Node) :=
  source.edges.flatMap fun e =>
    (groupValues (extract getValueAt e.node field)).map fun v => (groupKey v, e.node)

/-- The members of the key `k`: the nodes of the memberships with key `k`, in
result-set order. -/
def membersOf {Node : Type} (getValueAt : Node → String → JSValue) (source : Page Node)
    (field : String) (k : String) : List Node :=
  ((memberships getValueAt source field).filter fun m => m.1 == k).map Prod.snd

/-! ## Example data -/

/-- A node with an identifier and a `color` field. -/
structure ColorNode where
  id : Nat
  color : JSValue

/-- Field lookup on a `ColorNode`: only the raw path `color` holds a value. -/
def ColorNode.getValueAt (node : ColorNode) (path : String) : JSValue :=
  if path = "color" then node.color else .undefined

/-- Five nodes whose `color` is `["red","blue"]`, `["red"]`, `[]`, `null`, `["blue"]`. -/
def colorNodes : List ColorNode :=
  [ ⟨1, .arr 1 [.str "red", .str "blue"]⟩,
    ⟨2, .arr 2 [.str "red"]⟩,
    ⟨3, .arr 3 []⟩,
    ⟨4, .null⟩,
    ⟨5, .arr 5 [.str "blue"]⟩ ]

/-- One node whose `color` is the array `["a", null]`. -/
def nullElementNodes : List ColorNode := [⟨1, .arr 1 [.str "a", .null]⟩]

/-- The number of non-null values an extracted value stands for: every element
of an array that is neither `null` nor `undefined` counts once, and a value that
is not an array counts once unless it is `null` or `undefined`. -/
def nonNullCount : JSValue → Nat
  | .arr _ elems => elems.countP fun v => !v.isNullish
  | v => if v.isNullish then 0 else 1

/-- One node whose `color` is an array holding one `Date`, and one node whose
`color` is a `Date` itself. -/
def dateNodes : List ColorNode :=
  [ ⟨1, .arr 1 [.date 2 "2020-01-01T00:00:00.000Z" "Wed Jan 01 2020 00:00:00 GMT+0000"]⟩,
    ⟨2, .date 3 "2021-06-15T12:00:00.000Z" "Tue Jun 15 2021 12:00:00 GMT+0000"⟩ ]

/-- A node with a `count` field and a resolved-value cache entry for it. -/
structure CachedNode where
  id : Nat
  resolved : JSValue
  count : JSValue

/-- Field lookup on a `CachedNode`: the path `__gatsby_resolved.count` holds the
cached value and the path `count` the raw one. -/
def CachedNode.getValueAt (node : CachedNode) (path : String) : JSValue :=
  if path = "__gatsby_resolved.count" then node.resolved
  else if path = "count" then node.count
  else .undefined

/-- Three nodes whose cached values are `0`, `false` and the empty string, with
the raw values `5`, `6` and `7`. -/
def falsyCacheNodes : List CachedNode :=
  [⟨1, .num 0, .num 5⟩, ⟨2, .bool false, .num 6⟩, ⟨3, .str "", .num 7⟩]

/-! ## Selection sets -/

/-- An argument of a field selection: its name (`name.value`) and the value
given for it (`value.value`). -/
structure Argument where
  name : String
  value : String
  deriving DecidableEq

/-- A selection of a parsed query, by `kind`: a field with its name, arguments
and sub-selections, a fragment spread with the name of the fragment, or an
inline fragment with its selection set. -/
inductive Selection where
  | field (name : String) (arguments : List Argument) (selectionSet : List Selection)
  | fragmentSpread (name : String)
  | inlineFragment (selectionSet : List Selection)

/-- The table `info.fragments`: the selection set of the fragment definition
stored under a name, `none` when there is no such fragment. -/
abbrev FragmentTable := String → Option (List Selection)

/-- The callback of the `reduce` in `getFieldNodeByNameInSelectionSet`, with the
recursive call as the parameter `recurse`. An accumulator `none` stands for a
recursive call that has not returned. -/
def collectStep (fragments : FragmentTable) (fieldName : String)
    (recurse : List Selection → Option (List Selection))
    (acc : Option (List Selection)) (selection : Selection) : Option (List Selection) :=
  match acc with
  | none => none
  | some acc =>
    match selection with
    | .fragmentSpread name =>
      match fragments name with
      | some fragmentDef => (recurse fragmentDef).map fun found => acc ++ found
      | none => some acc
    | .inlineFragment selectionSet => (recurse selectionSet).map fun found => acc ++ found
    | .field name _ _ => if name = fieldName then some (acc ++ [selection]) else some acc

/-- The function `getFieldNodeByNameInSelectionSet(selectionSet, fieldName, info)`.
The recursion follows the fragment table and need not end, so the depth of
nested calls is bounded by `fuel`; `none` is a call that ran out of it. -/
def getFieldNodeByNameInSelectionSet (fragments : FragmentTable) (fieldName : String) :
    Nat → List Selection → Option (List Selection)
  | 0, _ => none
  | fuel + 1, selections =>
    selections.foldl
      (collectStep fragments fieldName (getFieldNodeByNameInSelectionSet fragments fieldName fuel))
      (some [])

mutual
/-- The fragment names a selection refers to, through inline fragments but not
through the sub-selections of fields. -/
def Selection.spreads : Selection → List String
  | .field _ _ _ => []
  | .fragmentSpread name => [name]
  | .inlineFragment selectionSet => spreadsOf selectionSet
/-- The fragment names a selection set refers to. -/
def spreadsOf : List Selection → List String
  | [] => []
  | selection :: rest => selection.spreads ++ spreadsOf rest
end

/-- The fragment references of a table are acyclic: the fragments can be ranked
so that every fragment defined in the table ranks above the defined fragments
its selection set refers to. -/
def Acyclic (fragments : FragmentTable) : Prop :=
  ∃ rank : String → Nat, ∀ name body, fragments name = some body →
    ∀ m ∈ spreadsOf body, (fragments m).isSome = true → rank m < rank name

/-- The field selections named `fieldName` reachable from a selection set, in
depth-first document order: a field counts when it has the name, and its
sub-selections are not visited; a spread of a fragment of the table gives the
fields reachable from the fragment; a spread of a missing fragment gives
nothing; an inline fragment gives the fields reachable from its selection set. -/
inductive Collects (fragments : FragmentTable) (fieldName : String) :
    List Selection → List Selection → Prop where
  | nil : Collects fragments fieldName [] []
  | fieldNamed (name : String) (arguments : List Argument) (sub rest found : List Selection) :
      name = fieldName → Collects fragments fieldName rest found →
      Collects fragments fieldName (.field name arguments sub :: rest)
        (.field name arguments sub :: found)
  | fieldOther (name : String) (arguments : List Argument) (sub rest found : List Selection) :
      name ≠ fieldName → Collects fragments fieldName rest found →
      Collects fragments fieldName (.field name arguments sub :: rest) found
  | spreadMissing (name : String) (rest found : List Selection) :
      fragments name = none → Collects fragments fieldName rest found →
      Collects fragments fieldName (.fragmentSpread name :: rest) found
  | spreadFound (name : String) (body rest inner found : List Selection) :
      fragments name = some body → Collects fragments fieldName body inner →
      Collects fragments fieldName rest found →
      Collects fragments fieldName (.fragmentSpread name :: rest) (inner ++ found)
  | inline (selectionSet rest inner found : List Selection) :
      Collects fragments fieldName selectionSet inner →
      Collects fragments fieldName rest found →
      Collects fragments fieldName (.inlineFragment selectionSet :: rest) (inner ++ found)

/-- A fragment table with the fragments `A`, which spreads `B`, and `B`. -/
def exampleFragments : FragmentTable := fun name =>
  if name = "A" then
    some [.field "group" [⟨"field", "a"⟩] [], .fragmentSpread "B"]
  else if name = "B" then
    some [.inlineFragment [.field "group" [⟨"field", "b"⟩] []], .field "nodes" [] []]
  else none

/-- A selection set that spreads `A`, a missing fragment and selects fields. -/
def exampleSelections : List Selection :=
  [ .field "nodes" [] [.field "group" [⟨"field", "hidden"⟩] []],
    .fragmentSpread "A",
    .fragmentSpread "Missing",
    .field "group" [⟨"field", "c"⟩] [] ]

/-! ## Link resolver -/

/-- A GraphQL type: a named type, or a list or non-null wrapper around a type. -/
inductive GraphQLType where
  | named (name : String)
  | list (ofType : GraphQLType)
  | nonNull (ofType : GraphQLType)
  deriving DecidableEq

/-- The function `getNullableType` of `graphql`: removes a non-null wrapper. -/
def getNullableType : GraphQLType → GraphQLType
  | .nonNull ofType => ofType
  | type => type

/-- The function `getNamedType` of `graphql`: removes every wrapper and leaves
the named type, given by its name. -/
def getNamedType : GraphQLType → String
  | .named name => name
  | .list ofType => getNamedType ofType
  | .nonNull ofType => getNamedType ofType

/-- The test `type instanceof GraphQLList`. -/
def GraphQLType.isList : GraphQLType → Bool
  | .list _ => true
  | _ => false

/-- A filter sent to the store: the resolved value, or an object with one
property such as `{ eq: value }`, `{ in: value }` or `{ [key]: child }`. -/
inductive Filter where
  | value (v : JSValue)
  | object (key : String) (child : Filter)

/-- The helper `equals` of `link`: `value => { eq: value }`. -/
def equals (value : Filter) : Filter := .object "eq" value

/-- The helper `oneOf` of `link`: `value => { in: value }`. -/
def oneOf (value : Filter) : Filter := .object "in" value

/-- The segments of a character sequence between its dots; there is always at
least one segment. -/
def splitDots : List Char → List (List Char)
  | [] => [[]]
  | c :: cs =>
    if c = '.' then [] :: splitDots cs
    else
      match splitDots cs with
      | [] => [[c]]
      | segment :: segments => (c :: segment) :: segments

/-- The call `path.split(".")`. -/
def split (path : String) : List String := (splitDots path.toList).map String.mk

/-- The strict equality `a === b`: primitives by value, objects by identity.
Without `NaN` among the values it relates the same values as `sameValueZero`. -/
def strictEquals (a b : JSValue) : Bool := JSValue.sameValueZero a b

/-- The filter `link` stores in `args.filter`:
`by.split(".").reduceRight((acc, key, i, { length }) =>
  ({ [key]: i === length - 1 ? operator(acc) : acc }), fieldValue)`
with `operator` being `oneOf` for an array and `equals` otherwise. -/
def linkFilter (path : String) (fieldValue : JSValue) : Filter :=
  let operator : Filter → Filter := if fieldValue.isArray then oneOf else equals
  let keys := split path
  keys.enum.foldr
    (fun p acc =>
      .object p.2 (if (p.1 : Int) = (keys.length : Int) - 1 then operator acc else acc))
    (.value fieldValue)

/-- The counters `context.stats`. -/
structure Stats where
  totalRunQuery : Nat
  totalPluralRunQuery : Nat
  deriving DecidableEq

/-- The first argument of `runQuery`: `{ query: args, firstOnly, type, stats }`.
Of `args` the property `filter`, which `link` overwrites, is kept. -/
structure Query where
  filter : Filter
  firstOnly : Bool
  type : String
  stats : Option Stats

/-- What `runQuery` returns: `null`, one node, or an array of nodes. -/
inductive QueryResult (Node : Type) where
  | null
  | node (n : Node)
  | nodes (ns : List Node)

/-- The store `context.nodeModel`. Its operations are functions: they return and
do not fail. `getNodeById` returns a node or `null`, `getNodesByIds` an array of
nodes and `null`s, `findRootNodeAncestor(node, predicate)` a node or `null`. -/
structure NodeModel (Node : Type) where
  runQuery : Query → QueryResult Node
  getNodeById : JSValue → String → Option Node
  getNodesByIds : List JSValue → String → List (Option Node)
  getAllNodes : String → List Node
  findRootNodeAncestor : Node → (Node → Bool) → Option Node

/-- A call of a store operation with its arguments. -/
inductive StoreCall where
  | runQuery (query : Query)
  | getNodeById (id : JSValue) (type : String)
  | getNodesByIds (ids : List JSValue) (type : String)

/-- The resolver argument `info`, with the properties the resolvers read. -/
structure Info where
  from_ : Option String
  fromNode : Option Bool
  returnType : GraphQLType
  fieldName : String

/-- A field resolver applied to the `source`, `args` and `context` of the call,
as a function of the `info` it is given; it returns the field value. -/
abbrev Resolver := Info → JSValue

/-- The options of `link` and `fileByPath`: `{ by, from, fromNode, type }`. -/
structure LinkOptions where
  by_ : Option String
  from_ : Option String
  fromNode : Option Bool
  type : Option GraphQLType

/-- The field configuration: `{ resolve }`. -/
structure FieldConfig where
  resolve : Option Resolver

/-- The resolver argument `context`. -/
structure Context (Node : Type) where
  stats : Option Stats
  nodeModel : NodeModel Node
  defaultFieldResolver : Resolver

/-- Truthiness of an optional string: `undefined` and the empty string are falsy. -/
def truthyString : Option String → Bool
  | some s => s != ""
  | none => false

/-- The first statement of `link` and `fileByPath`: the value of
`resolver(source, args, context, { ...info, from, fromNode })` with
`resolver = fieldConfig.resolve || context.defaultFieldResolver`,
`from = options.from || info.from` and
`fromNode = options.from ? options.fromNode : info.fromNode`. -/
def resolveFieldValue {Node : Type} (options : LinkOptions) (fieldConfig : FieldConfig)
    (context : Context Node) (info : Info) : JSValue :=
  let resolver : Resolver := fieldConfig.resolve.getD context.defaultFieldResolver
  resolver
    { info with
      from_ := if truthyString options.from_ then options.from_ else info.from_
      fromNode := if truthyString options.from_ then options.fromNode else info.fromNode }

/-- A value returned by `link`: `null`, the resolved field value itself, a node,
or an array whose elements are nodes or hold no node (`null` in the answer of
`getNodesByIds`, `undefined` where `find` has no match). -/
inductive LinkValue (Node : Type) where
  | null
  | value (v : JSValue)
  | node (n : Node)
  | array (elems : List (Option Node))

/-- The answer of `runQuery` as a value returned by `link`. -/
def LinkValue.ofQueryResult {Node : Type} : QueryResult Node → LinkValue Node
  | .null => .null
  | .node n => .node n
  | .nodes ns => .array (ns.map some)

/-- The answer of `getNodeById` as a value returned by `link`. -/
def LinkValue.ofOption {Node : Type} : Option Node → LinkValue Node
  | none => .null
  | some n => .node n

/-- What a call of the `link` resolver does: the value it returns, the counters
`context.stats` after the call, and the store operations it called, in order. -/
structure LinkOutcome (Node : Type) where
  value : LinkValue Node
  stats : Option Stats
  calls : List StoreCall

/-- The counters after `totalRunQuery++` and, if `firstOnly`, `totalPluralRunQuery++`. -/
def countQuery (firstOnly : Bool) (stats : Stats) : Stats :=
  { totalRunQuery := stats.totalRunQuery + 1
    totalPluralRunQuery :=
      if firstOnly then stats.totalPluralRunQuery + 1 else stats.totalPluralRunQuery }

/-- The test `Array.isArray(fieldValue) && fieldValue.length === 0`. -/
def isEmptyArray : JSValue → Bool
  | .arr _ [] => true
  | _ => false

/-- The type `getNullableType(options.type || info.returnType)` that `link`
calls `returnType`. -/
def linkReturnType (options : LinkOptions) (info : Info) : GraphQLType :=
  getNullableType (options.type.getD info.returnType)

/-- The object `{ query: args, firstOnly, type, stats: context.stats }` that
`link` passes to `runQuery`, after `args.filter` is set and the counters are
incremented; `firstOnly = !(returnType instanceof GraphQLList)`. -/
def linkQuery {Node : Type} (options : LinkOptions) (context : Context Node) (info : Info)
    (path : String) (fieldValue : JSValue) : Query :=
  let returnType := linkReturnType options info
  let firstOnly := !returnType.isList
  { filter := linkFilter path fieldValue
    firstOnly := firstOnly
    type := getNamedType returnType
    stats := context.stats.map (countQuery firstOnly) }

/-- The last statement of `link`: when the return type is a list and both the
field value and the answer are arrays, the value is
`fieldValue.map(value => result.find(obj => getValueAt(obj, options.by) === value))`,
otherwise the answer itself. -/
def linkProject {Node : Type} (getValueAt : Node → String → JSValue) (path : String)
    (returnType : GraphQLType) (fieldValue : JSValue) (result : QueryResult Node) :
    LinkValue Node :=
  match returnType.isList, fieldValue, result with
  | true, .arr _ values, .nodes found =>
    .array (values.map fun value =>
      found.find? fun obj => strictEquals (getValueAt obj path) value)
  | _, _, _ => .ofQueryResult result

/-- The resolver `link(options, fieldConfig)(source, args, context, info)`.
A raised `TypeError` (`options.by.split` with `by` undefined) is `Except.error`. -/
def link {Node : Type} (getValueAt : Node → String → JSValue) (options : LinkOptions)
    (fieldConfig : FieldConfig) (context : Context Node) (info : Info) :
    Except String (LinkOutcome Node) :=
  let fieldValue := resolveFieldValue options fieldConfig context info
  if fieldValue.isNullish then .ok { value := .null, stats := context.stats, calls := [] }
  else
    let returnType := linkReturnType options info
    let type := getNamedType returnType
    if options.by_ = some "id" then
      match fieldValue with
      | .arr _ ids =>
        .ok { value := .array (context.nodeModel.getNodesByIds ids type)
              stats := context.stats
              calls := [.getNodesByIds ids type] }
      | id =>
        .ok { value := .ofOption (context.nodeModel.getNodeById id type)
              stats := context.stats
              calls := [.getNodeById id type] }
    else if isEmptyArray fieldValue then
      .ok { value := .value fieldValue, stats := context.stats, calls := [] }
    else
      match options.by_ with
      | none => .error "TypeError: options.by is undefined"
      | some path =>
        let query := linkQuery options context info path fieldValue
        let result := context.nodeModel.runQuery query
        .ok { value := linkProject getValueAt path returnType fieldValue result
              stats := query.stats
              calls := [.runQuery query] }

/-! ## Words of the specification for `link` -/

/-- The tree `{k1: {k2: … {kn: op} … }}` for the keys `k1, …, kn`. -/
def nestKeys : List String → Filter → Filter
  | [], op => op
  | key :: keys, op => .object key (nestKeys keys op)

/-- The operator object of a resolved value `v`: `{in: v}` when `v` is an array
and `{eq: v}` otherwise. -/
def operatorOf (v : JSValue) : Filter :=
  if v.isArray then .object "in" (.value v) else .object "eq" (.value v)

/-- The characters of `k1.k2.….kn`. -/
def joinDots : List (List Char) → List Char
  | [] => []
  | [segment] => segment
  | segment :: next :: rest => segment ++ '.' :: joinDots (next :: rest)

/-- The dotted path `k1.k2.….kn` of the segments `k1, …, kn`. -/
def dottedPath (keys : List String) : String := String.mk (joinDots (keys.map String.toList))

/-- The return type of a link: the type given in the link options when there is
one, and the declared return type of the field otherwise. -/
def effectiveReturnType (options : LinkOptions) (info : Info) : GraphQLType :=
  match options.type with
  | some type => type
  | none => info.returnType

/-- A type is a list type when it is a list or a non-null list. -/
def isListType : GraphQLType → Bool
  | .list _ => true
  | .nonNull (.list _) => true
  | _ => false

/-- The options `{ by: path, type }`. -/
def linkByOfType (path : String) (type : GraphQLType) : LinkOptions where
  by_ := some path
  from_ := none
  fromNode := none
  type := some type

/-! ## Example store -/

/-- A node with an identifier, a `slug` and the fields of a `File` node. -/
structure PostNode where
  id : Nat
  slug : String
  dir : String
  absolutePath : String
  deriving DecidableEq

/-- Field lookup on a `PostNode`: the paths `slug` and `frontmatter.author.slug`
hold the slug. -/
def PostNode.getValueAt (node : PostNode) (path : String) : JSValue :=
  if path = "slug" ∨ path = "frontmatter.author.slug" then .str node.slug else .undefined

/-- Three nodes, two of them with the slug `a`. -/
def postNodes : List PostNode :=
  [⟨1, "a", "/site/posts", "/site/posts/a.md"⟩, ⟨2, "b", "/site/posts", "/site/posts/b.md"⟩,
   ⟨3, "a", "/site/img", "/site/img/a.png"⟩]

/-- A store that answers a query with the first node when `firstOnly` is set and
with all three nodes otherwise, knows no identifier, lists the three nodes as
files, and finds the given ancestor. -/
def exampleStore (ancestor : Option PostNode) : NodeModel PostNode where
  runQuery := fun query =>
    if query.firstOnly then .node ⟨1, "a", "/site/posts", "/site/posts/a.md"⟩
    else .nodes postNodes
  getNodeById := fun _ _ => none
  getNodesByIds := fun ids _ => ids.map fun _ => none
  getAllNodes := fun _ => postNodes
  findRootNodeAncestor := fun _ _ => ancestor

/-- A context with zeroed counters whose default resolver returns `value`. -/
def exampleContext (ancestor : Option PostNode) (value : JSValue) : Context PostNode where
  stats := some ⟨0, 0⟩
  nodeModel := exampleStore ancestor
  defaultFieldResolver := fun _ => value

/-- An `info` with the given return type. -/
def exampleInfo (returnType : GraphQLType) : Info where
  from_ := none
  fromNode := none
  returnType := returnType
  fieldName := "author"

/-- The options `{ by: path }`. -/
def linkBy (path : String) : LinkOptions where
  by_ := some path
  from_ := none
  fromNode := none
  type := none

/-! ## Path-link resolver -/

/-- The properties `fileByPath` reads from nodes: `internal.type` (`none` when
`node.internal` is missing), and `dir` and `absolutePath` of a `File` node, both
strings (`absolutePath` is `none` on a node without one). -/
structure FileFields (Node : Type) where
  internalType : Node → Option String
  dir : Node → String
  absolutePath : Node → Option String

/-- What `resolveValue` returns: the value of `resolve` for a value that is not
an array (a node, or `none` for the `undefined` of a search without match), and
the array of the results for an array. -/
inductive Resolved (Node : Type) where
  | file (found : Option Node)
  | array (elems : List (Resolved Node))

/-- The closure `findLinkedFileNode` of `fileByPath`. Reading `parentFileNode.dir`
raises a `TypeError` when `parentFileNode` is `null`; `systemPath.resolve` raises
a `TypeError` for a `relativePath` that is not a string. The parameter
`fileLinkPath dir relativePath` is `normalize(systemPath.resolve(dir, relativePath))`. -/
def findLinkedFileNode {Node : Type} (fields : FileFields Node)
    (fileLinkPath : String → String → String) (context : Context Node)
    (parentFileNode : Option Node) (relativePath : JSValue) : Except String (Option Node) :=
  match parentFileNode with
  | none => .error "TypeError: parentFileNode is null"
  | some parent =>
    match relativePath with
    | .str path =>
      .ok ((context.nodeModel.getAllNodes "File").find? fun n =>
        fields.absolutePath n == some (fileLinkPath (fields.dir parent) path))
    | _ => .error "TypeError: the path argument must be a string"

mutual
/-- The function `resolveValue(resolve, value)`: `resolve` is mapped over an
array, recursively, and applied to any other value. -/
def resolveValue {Node : Type} (resolve : JSValue → Except String (Option Node)) :
    JSValue → Except String (Resolved Node)
  | .arr _ elems => (resolveValues resolve elems).map Resolved.array
  | .undefined => (resolve .undefined).map Resolved.file
  | .null => (resolve .null).map Resolved.file
  | .bool b => (resolve (.bool b)).map Resolved.file
  | .num n => (resolve (.num n)).map Resolved.file
  | .str s => (resolve (.str s)).map Resolved.file
  | .date r iso text => (resolve (.date r iso text)).map Resolved.file
  | .obj r => (resolve (.obj r)).map Resolved.file
/-- The call `value.map(v => resolveValue(resolve, v))`, which raises what the
first failing element raises. -/
def resolveValues {Node : Type} (resolve : JSValue → Except String (Option Node)) :
    List JSValue → Except String (List (Resolved Node))
  | [] => .ok []
  | v :: rest =>
    match resolveValue resolve v with
    | .error e => .error e
    | .ok r =>
      match resolveValues resolve rest with
      | .error e => .error e
      | .ok rs => .ok (r :: rs)
end

/-- The resolver `fileByPath(options, fieldConfig)(source, args, context, info)`;
the value `none` is the returned `null`. -/
def fileByPath {Node : Type} (fields : FileFields Node)
    (fileLinkPath : String → String → String) (options : LinkOptions)
    (fieldConfig : FieldConfig) (source : Node) (context : Context Node) (info : Info) :
    Except String (Option (Resolved Node)) :=
  let fieldValue := resolveFieldValue options fieldConfig context info
  if fieldValue.isNullish then .ok none
  else
    let parentFileNode := context.nodeModel.findRootNodeAncestor source
      (fun node => fields.internalType node == some "File")
    (resolveValue (findLinkedFileNode fields fileLinkPath context parentFileNode) fieldValue).map
      some

/-! ## Words of the specification for `fileByPath` -/

mutual
/-- Every path value of a field value is a string. -/
def allPaths : JSValue → Bool
  | .str _ => true
  | .arr _ elems => allPathsIn elems
  | _ => false
/-- Every path value of the elements is a string. -/
def allPathsIn : List JSValue → Bool
  | [] => true
  | v :: rest => allPaths v && allPathsIn rest
end

/-- The matched `File` record of a path: the first record among all `File`
records whose absolute path is the path resolved against the directory of the
parent file. -/
def matchedFile {Node : Type} (fields : FileFields Node)
    (fileLinkPath : String → String → String) (context : Context Node) (parent : Node)
    (path : String) : Option Node :=
  (context.nodeModel.getAllNodes "File").find? fun n =>
    fields.absolutePath n == some (fileLinkPath (fields.dir parent) path)

mutual
/-- For each path value, in the original order and nesting, the matched record. -/
def matchedFiles {Node : Type} (lookup : String → Option Node) : JSValue → Resolved Node
  | .str path => .file (lookup path)
  | .arr _ elems => .array (matchedFilesIn lookup elems)
  | _ => .file none
/-- The matched records of the elements of an array. -/
def matchedFilesIn {Node : Type} (lookup : String → Option Node) :
    List JSValue → List (Resolved Node)
  | [] => []
  | v :: rest => matchedFiles lookup v :: matchedFilesIn lookup rest
end

/-- The properties of a `PostNode` read by `fileByPath`; every node is a `File`. -/
def postFields : FileFields PostNode where
  internalType := fun _ => some "File"
  dir := fun node => node.dir
  absolutePath := fun node => some node.absolutePath

/-- A path resolution that appends the relative path to the directory. -/
def appendPath (dir relativePath : String) : String := dir ++ "/" ++ relativePath

/-! # Theorems -/

open JSValue

variable {α Node : Type}

/-! ## Theorems: pagination engine -/

theorem slice_natCast (xs : List α) (s e : Nat) :
    slice xs (s : Int) (some (e : Int)) = (xs.drop s).take (e - s) := by
  unfold slice
  have h1 : ¬ ((s : Int) < 0) := by omega
  have h2 : ¬ ((e : Int) < 0) := by omega
  simp only [h1, h2, if_false]
  rcases Nat.lt_or_ge xs.length s with h | h
  · have : (min (s : Int) (xs.length : Int)).toNat = xs.length := by omega
    rw [this]
    simp [List.drop_eq_nil_of_le (Nat.le_of_lt h)]
  · have hk : (min (s : Int) (xs.length : Int)).toNat = s := by omega
    rw [hk]
    have hmin : (min (s : Int) (xs.length : Int)) = s := by omega
    rw [hmin]
    rw [List.take_eq_take]
    simp only [List.length_drop]
    omega

theorem slice_natCast_none (xs : List α) (s : Nat) :
    slice xs (s : Int) none = xs.drop s := by
  unfold slice
  have h1 : ¬ ((s : Int) < 0) := by omega
  simp only [h1, if_false]
  rcases Nat.lt_or_ge xs.length s with h | h
  · have : (min (s : Int) (xs.length : Int)).toNat = xs.length := by omega
    rw [this]
    simp [List.drop_eq_nil_of_le (Nat.le_of_lt h)]
  · have hk : (min (s : Int) (xs.length : Int)).toNat = s := by omega
    rw [hk]
    have hmin : (min (s : Int) (xs.length : Int)) = s := by omega
    rw [hmin]
    apply List.take_of_length_le
    simp only [List.length_drop]
    omega

theorem paginate_nodes_limit (items : List α) (S L : Nat) (hL : 0 < L) :
    (paginate (some items) ⟨some (S : Int), some (L : Int)⟩).nodes = (items.drop S).take L := by
  have hne : ¬ ((L : Int) = 0) := by omega
  have : ((S : Int) + (L : Int)) = ((S + L : Nat) : Int) := by push_cast; rfl
  simp only [paginate, sliceEnd, Option.getD_some, hne, if_false]
  rw [this, slice_natCast]
  congr 1
  omega

theorem paginate_nodes_nolimit (items : List α) (S : Nat) :
    (paginate (some items) ⟨some (S : Int), none⟩).nodes = items.drop S := by
  simp only [paginate, sliceEnd, Option.getD_some]
  rw [slice_natCast_none]

theorem paginate_totalCount (items : List α) (args : PaginationArgs) :
    (paginate (some items) args).totalCount = items.length := rfl

theorem paginate_itemCount (results : Option (List α)) (args : PaginationArgs) :
    (paginate results args).pageInfo.itemCount = (paginate results args).nodes.length := rfl

theorem paginate_edges_length (results : Option (List α)) (args : PaginationArgs) :
    (paginate results args).edges.length = (paginate results args).nodes.length := by
  simp [paginate]

/-- For a positive divisor, `ceilDiv a b` is the least integer `c` with `a ≤ b * c`. -/
theorem ceilDiv_spec (a b : Int) (hb : 0 < b) :
    a ≤ b * ceilDiv a b ∧ b * ceilDiv a b < a + b := by
  unfold ceilDiv
  rw [Int.fdiv_eq_ediv _ (le_of_lt hb)]
  have h1 := Int.emod_add_ediv (-a) b
  have h2 := Int.emod_nonneg (-a) (ne_of_gt hb)
  have h3 := Int.emod_lt_of_pos (-a) hb
  constructor <;> nlinarith

/-- The model of `Math.ceil(a / b)` agrees with the ceiling of the exact rational quotient. -/
theorem ceilDiv_eq_ceil (a b : Int) (hb : 0 < b) :
    ceilDiv a b = Int.ceil ((a : ℚ) / (b : ℚ)) := by
  have h := ceilDiv_spec a b hb
  have hbq : (0 : ℚ) < (b : ℚ) := by exact_mod_cast hb
  symm
  rw [Int.ceil_eq_iff]
  constructor
  · rw [lt_div_iff₀ hbq]
    have : ((ceilDiv a b - 1) * b : Int) < a := by nlinarith [h.2]
    exact_mod_cast this
  · rw [div_le_iff₀ hbq]
    have : a ≤ (ceilDiv a b) * b := by nlinarith [h.1]
    exact_mod_cast this

theorem ceilDiv_nonneg (a b : Int) (ha : 0 ≤ a) (hb : 0 < b) : 0 ≤ ceilDiv a b := by
  have h := ceilDiv_spec a b hb
  by_contra hc
  have : ceilDiv a b ≤ -1 := by omega
  nlinarith [h.2]

/-- C1: for items of length N and skip S ≥ 0, paginate reports totalCount = N and
returns as nodes the contiguous run items[S : S+L] (clipped at the end) when
limit = L > 0, and items[S : end] when limit is unset, in the original order. -/
theorem paginate_slice_contract (items : List α) (S L : Nat) (hL : 0 < L) :
    (paginate (some items) ⟨some (S : Int), some (L : Int)⟩).totalCount = items.length ∧
    (paginate (some items) ⟨some (S : Int), some (L : Int)⟩).nodes = (items.drop S).take L ∧
    (paginate (some items) ⟨some (S : Int), none⟩).totalCount = items.length ∧
    (paginate (some items) ⟨some (S : Int), none⟩).nodes = items.drop S :=
  ⟨paginate_totalCount _ _, paginate_nodes_limit items S L hL,
    paginate_totalCount _ _, paginate_nodes_nolimit items S⟩

theorem paginate_slice_contract_witness :
    (0 < 2) ∧
    (paginate (some [10, 20, 30, 40, 50]) ⟨some ((1 : Nat) : Int), some ((2 : Nat) : Int)⟩).totalCount = 5 ∧
    (paginate (some [10, 20, 30, 40, 50]) ⟨some ((1 : Nat) : Int), some ((2 : Nat) : Int)⟩).nodes = [20, 30] ∧
    (paginate (some [10, 20, 30, 40, 50]) ⟨some ((1 : Nat) : Int), none⟩).totalCount = 5 ∧
    (paginate (some [10, 20, 30, 40, 50]) ⟨some ((1 : Nat) : Int), none⟩).nodes = [20, 30, 40, 50] :=
  ⟨by decide, paginate_slice_contract [10, 20, 30, 40, 50] 1 2 (by decide)⟩

/-- C2: for items of length N, limit L > 0 and skip S ≥ 0, paginate returns
pageInfo.itemCount = min(L, max(0, N - S)), and as many edges as nodes. -/
theorem paginate_itemCount_contract (items : List α) (S L : Nat) (hL : 0 < L) :
    ((paginate (some items) ⟨some (S : Int), some (L : Int)⟩).pageInfo.itemCount : Int)
        = min (L : Int) (max 0 ((items.length : Int) - (S : Int))) ∧
    (paginate (some items) ⟨some (S : Int), some (L : Int)⟩).edges.length
        = (paginate (some items) ⟨some (S : Int), some (L : Int)⟩).nodes.length := by
  refine ⟨?_, paginate_edges_length _ _⟩
  rw [paginate_itemCount, paginate_nodes_limit items S L hL]
  simp only [List.length_take, List.length_drop]
  omega

theorem paginate_itemCount_contract_witness :
    (0 < 3) ∧
    ((paginate (some [10, 20, 30, 40, 50]) ⟨some ((4 : Nat) : Int), some ((3 : Nat) : Int)⟩).pageInfo.itemCount : Int)
        = min ((3 : Nat) : Int) (max 0 ((([10, 20, 30, 40, 50] : List Nat).length : Int) - ((4 : Nat) : Int))) ∧
    (paginate (some [10, 20, 30, 40, 50]) ⟨some ((4 : Nat) : Int), some ((3 : Nat) : Int)⟩).edges.length
        = (paginate (some [10, 20, 30, 40, 50]) ⟨some ((4 : Nat) : Int), some ((3 : Nat) : Int)⟩).nodes.length :=
  ⟨by decide, paginate_itemCount_contract [10, 20, 30, 40, 50] 4 3 (by decide)⟩

/-- C3 (as stated, refuted): on the empty sequence with skip 0 and limit 1 the
page count is 0, so pageCount ≥ 1 fails although skip ≥ 0 and limit is positive. -/
theorem paginate_pageCount_counterexample :
    (paginate (some ([] : List Nat)) ⟨some 0, some 1⟩).pageInfo.pageCount = 0 ∧
    ¬ (1 ≤ (paginate (some ([] : List Nat)) ⟨some 0, some 1⟩).pageInfo.pageCount ∧
       1 ≤ (paginate (some ([] : List Nat)) ⟨some 0, some 1⟩).pageInfo.currentPage) := by
  decide

/-- For skip S ≥ 0 and limit unset or positive, currentPage ≥ 1, and pageCount ≥ 1
exactly when the sequence is non-empty, or limit is unset, or skip is not a
multiple of limit. -/
theorem pageCount_ge_one_iff (items : List α) (S : Nat) (limit : Option Int)
    (hlim : ∀ L, limit = some L → 0 < L) :
    1 ≤ (paginate (some items) ⟨some (S : Int), limit⟩).pageInfo.currentPage ∧
    (1 ≤ (paginate (some items) ⟨some (S : Int), limit⟩).pageInfo.pageCount ↔
      (items ≠ [] ∨ ∀ L, limit = some L → ¬ (L ∣ (S : Int)))) := by
  cases limit with
  | none =>
    simp only [paginate, Option.getD_some]
    constructor
    · split <;> omega
    · constructor
      · intro _; right; intro L h; cases h
      · intro _; split <;> omega
  | some L =>
    have hL : 0 < L := hlim L rfl
    have hne : L ≠ 0 := ne_of_gt hL
    simp only [paginate, Option.getD_some, hne, ne_eq, not_false_eq_true, if_true]
    have h1 := ceilDiv_spec (S : Int) L hL
    have h2 := ceilDiv_spec ((items.length : Int) - (S : Int)) L hL
    have hS : (0 : Int) ≤ (S : Int) := Int.ofNat_nonneg S
    have hc1 := ceilDiv_nonneg (S : Int) L hS hL
    refine ⟨by omega, ?_⟩
    constructor
    · intro hpc
      by_cases hnil : items = []
      · right
        intro L' hL' hdvd
        cases hL'
        subst hnil
        obtain ⟨c, hc⟩ := hdvd
        simp only [List.length_nil, Int.ofNat_zero, Nat.cast_zero, zero_sub] at h2 hpc
        rw [hc] at h1 h2 hpc
        have e1 : ceilDiv (L * c) L = c := by
          have a1 : c ≤ ceilDiv (L * c) L := by
            by_contra hh
            have : ceilDiv (L * c) L + 1 ≤ c := by omega
            nlinarith [h1.1]
          have a2 : ceilDiv (L * c) L ≤ c := by
            by_contra hh
            have : c + 1 ≤ ceilDiv (L * c) L := by omega
            nlinarith [h1.2]
          omega
        have e2 : ceilDiv (-(L * c)) L = -c := by
          have a1 : -c ≤ ceilDiv (-(L * c)) L := by
            by_contra hh
            have : ceilDiv (-(L * c)) L + 1 ≤ -c := by omega
            nlinarith [h2.1]
          have a2 : ceilDiv (-(L * c)) L ≤ -c := by
            by_contra hh
            have : -c + 1 ≤ ceilDiv (-(L * c)) L := by omega
            nlinarith [h2.2]
          omega
        omega
      · left; exact hnil
    · intro h
      rcases h with hne' | hnd
      · have hlen : (1 : Int) ≤ (items.length : Int) := by
          have : 0 < items.length := List.length_pos.mpr hne'
          omega
        by_contra hh
        have : ceilDiv (S : Int) L + ceilDiv ((items.length : Int) - (S : Int)) L ≤ 0 := by omega
        nlinarith [h1.1, h2.1]
      · have hnd' := hnd L rfl
        by_contra hh
        have hle : ceilDiv (S : Int) L + ceilDiv ((items.length : Int) - (S : Int)) L ≤ 0 := by omega
        have hlen : (0 : Int) ≤ (items.length : Int) := Int.ofNat_nonneg _
        -- then L * ceilDiv S L = S, so L divides S
        apply hnd'
        refine ⟨ceilDiv (S : Int) L, ?_⟩
        nlinarith [h1.1, h2.1]

/-- For skip S ≥ 0 and limit unset or positive the page count is not negative. -/
theorem pageCount_nonneg (items : List α) (S : Nat) (limit : Option Int)
    (hlim : ∀ L, limit = some L → 0 < L) :
    0 ≤ (paginate (some items) ⟨some (S : Int), limit⟩).pageInfo.pageCount := by
  cases limit with
  | none =>
    simp only [paginate, Option.getD_some]
    split <;> omega
  | some L =>
    have hL : 0 < L := hlim L rfl
    have hne : L ≠ 0 := ne_of_gt hL
    simp only [paginate, Option.getD_some, hne, ne_eq, not_false_eq_true, if_true]
    have h1 := ceilDiv_spec (S : Int) L hL
    have h2 := ceilDiv_spec ((items.length : Int) - (S : Int)) L hL
    have hlen : (0 : Int) ≤ (items.length : Int) := Int.ofNat_nonneg _
    by_contra hh
    have : ceilDiv (S : Int) L + ceilDiv ((items.length : Int) - (S : Int)) L ≤ -1 := by omega
    nlinarith [h1.1, h2.1]

/-- C3 (amended): for skip S ≥ 0 and limit unset or a positive integer L,
currentPage ≥ 1 always; pageCount ≥ 1 exactly when the sequence is non-empty, or
limit is unset, or S is not a multiple of L; and for the empty sequence with
limit L and S a multiple of L (S = 0 included) pageCount is 0. -/
theorem paginate_page_numbers (items : List α) (S : Nat) (limit : Option Int)
    (hlim : ∀ L, limit = some L → 0 < L) :
    1 ≤ (paginate (some items) ⟨some (S : Int), limit⟩).pageInfo.currentPage ∧
    (1 ≤ (paginate (some items) ⟨some (S : Int), limit⟩).pageInfo.pageCount ↔
      (items ≠ [] ∨ ∀ L, limit = some L → ¬ (L ∣ (S : Int)))) ∧
    ((items = [] ∧ ∃ L, limit = some L ∧ L ∣ (S : Int)) →
      (paginate (some items) ⟨some (S : Int), limit⟩).pageInfo.pageCount = 0) := by
  obtain ⟨hcur, hiff⟩ := pageCount_ge_one_iff items S limit hlim
  refine ⟨hcur, hiff, ?_⟩
  rintro ⟨hnil, L, hL, hdvd⟩
  have hnn := pageCount_nonneg items S limit hlim
  have hnot : ¬ (1 ≤ (paginate (some items) ⟨some (S : Int), limit⟩).pageInfo.pageCount) := by
    intro h
    rcases hiff.mp h with h1 | h2
    · exact h1 hnil
    · exact h2 L hL hdvd
  omega

theorem paginate_page_numbers_witness :
    (∀ L : Int, (some 2 : Option Int) = some L → 0 < L) ∧
    (([] : List Nat) = [] ∧ ∃ L : Int, (some 2 : Option Int) = some L ∧ L ∣ ((4 : Nat) : Int)) ∧
    1 ≤ (paginate (some ([] : List Nat)) ⟨some ((4 : Nat) : Int), some 2⟩).pageInfo.currentPage ∧
    (1 ≤ (paginate (some ([] : List Nat)) ⟨some ((4 : Nat) : Int), some 2⟩).pageInfo.pageCount ↔
      (([] : List Nat) ≠ [] ∨
        ∀ L : Int, (some 2 : Option Int) = some L → ¬ (L ∣ ((4 : Nat) : Int)))) ∧
    ((([] : List Nat) = [] ∧ ∃ L : Int, (some 2 : Option Int) = some L ∧ L ∣ ((4 : Nat) : Int)) →
      (paginate (some ([] : List Nat)) ⟨some ((4 : Nat) : Int), some 2⟩).pageInfo.pageCount = 0) :=
  ⟨by intro L h; cases h; decide,
   ⟨rfl, 2, rfl, ⟨2, by decide⟩⟩,
   paginate_page_numbers ([] : List Nat) 4 (some 2) (by intro L h; cases h; decide)⟩

/-- C4: for items of length N and skip S ≥ 0, hasNextPage is false when limit is
unset, and with limit = L > 0 it is true exactly when S + L < N. -/
theorem paginate_hasNextPage_contract (items : List α) (S L : Nat) (hL : 0 < L) :
    (paginate (some items) ⟨some (S : Int), none⟩).pageInfo.hasNextPage = false ∧
    ((paginate (some items) ⟨some (S : Int), some (L : Int)⟩).pageInfo.hasNextPage = true ↔
      S + L < items.length) := by
  have _h := hL
  refine ⟨rfl, ?_⟩
  simp only [paginate, Option.getD_some, decide_eq_true_eq]
  omega

theorem paginate_hasNextPage_contract_witness :
    (0 < 2) ∧
    (paginate (some [10, 20, 30, 40, 50]) ⟨some ((1 : Nat) : Int), none⟩).pageInfo.hasNextPage = false ∧
    ((paginate (some [10, 20, 30, 40, 50]) ⟨some ((1 : Nat) : Int), some ((2 : Nat) : Int)⟩).pageInfo.hasNextPage = true ↔
      1 + 2 < [10, 20, 30, 40, 50].length) :=
  ⟨by decide, paginate_hasNextPage_contract [10, 20, 30, 40, 50] 1 2 (by decide)⟩

theorem index_natCast (xs : List α) (i : Nat) : index xs (i : Int) = xs[i]? := by
  unfold index
  have h : ¬ ((i : Int) < 0) := by omega
  simp [h]

/-- C5: for every page returned by paginate and every index i into its nodes,
edges[i].node is nodes[i], edges[i].previous is nodes[i-1] when i > 0 and absent
when i = 0, and edges[i].next is nodes[i+1] when i+1 < nodes.length and absent
for the last edge; the neighbours are read from the returned slice only. -/
theorem paginate_edges_contract (results : Option (List α)) (args : PaginationArgs) (i : Nat)
    (hi : i < (paginate results args).nodes.length) :
    ∃ e : Edge α,
      (paginate results args).edges[i]? = some e ∧
      (paginate results args).nodes[i]? = some e.node ∧
      (0 < i → e.previous = (paginate results args).nodes[i - 1]? ∧ e.previous ≠ none) ∧
      (i = 0 → e.previous = none) ∧
      (i + 1 < (paginate results args).nodes.length →
        e.next = (paginate results args).nodes[i + 1]? ∧ e.next ≠ none) ∧
      (i + 1 = (paginate results args).nodes.length → e.next = none) := by
  simp only [paginate] at hi ⊢
  generalize slice (results.getD []) (args.skip.getD 0) (sliceEnd (args.skip.getD 0) args.limit)
    = items at hi ⊢
  refine ⟨{ node := items[i], next := index items ((i : Int) + 1),
            previous := index items ((i : Int) - 1) }, ?_, ?_, ?_, ?_, ?_, ?_⟩
  · simp [List.getElem?_map, List.getElem?_eq_getElem hi, List.enum]
  · simp [List.getElem?_eq_getElem hi]
  · intro h0
    have e : ((i : Int) - 1) = ((i - 1 : Nat) : Int) := by omega
    simp only [e, index_natCast]
    refine ⟨trivial, ?_⟩
    rw [List.getElem?_eq_getElem (by omega)]
    simp
  · intro h0
    subst h0
    simp [index]
  · intro h1
    have e : ((i : Int) + 1) = ((i + 1 : Nat) : Int) := by omega
    simp only [e, index_natCast]
    refine ⟨trivial, ?_⟩
    rw [List.getElem?_eq_getElem h1]
    simp
  · intro h1
    have e : ((i : Int) + 1) = ((i + 1 : Nat) : Int) := by omega
    simp only [e, index_natCast]
    exact List.getElem?_eq_none (by omega)

theorem paginate_edges_contract_witness :
    (1 < (paginate (some [10, 20, 30, 40, 50]) ⟨some 1, some 3⟩).nodes.length) ∧
    ∃ e : Edge Nat,
      (paginate (some [10, 20, 30, 40, 50]) ⟨some 1, some 3⟩).edges[1]? = some e ∧
      (paginate (some [10, 20, 30, 40, 50]) ⟨some 1, some 3⟩).nodes[1]? = some e.node ∧
      (0 < 1 → e.previous = (paginate (some [10, 20, 30, 40, 50]) ⟨some 1, some 3⟩).nodes[1 - 1]? ∧
        e.previous ≠ none) ∧
      (1 = 0 → e.previous = none) ∧
      (1 + 1 < (paginate (some [10, 20, 30, 40, 50]) ⟨some 1, some 3⟩).nodes.length →
        e.next = (paginate (some [10, 20, 30, 40, 50]) ⟨some 1, some 3⟩).nodes[1 + 1]? ∧
        e.next ≠ none) ∧
      (1 + 1 = (paginate (some [10, 20, 30, 40, 50]) ⟨some 1, some 3⟩).nodes.length →
        e.next = none) :=
  ⟨by decide, paginate_edges_contract (some [10, 20, 30, 40, 50]) ⟨some 1, some 3⟩ 1 (by decide)⟩

/-- C6: paginate on the empty sequence with empty pagination arguments. -/
theorem paginate_empty :
    paginate (some ([] : List α)) ⟨none, none⟩ =
      { totalCount := 0
        edges := []
        nodes := []
        pageInfo :=
          { currentPage := 1
            hasPreviousPage := false
            hasNextPage := false
            itemCount := 0
            pageCount := 1
            perPage := none } } := by
  rfl

/-! ## Theorems: the string order -/

theorem unitsLt_irrefl (a : List Nat) : unitsLt a a = false := by
  induction a with
  | nil => rfl
  | cons x xs ih => simp [unitsLt, ih]

theorem unitsLt_trans : ∀ (a b c : List Nat), unitsLt a b = true → unitsLt b c = true → unitsLt a c = true
  | [], [], _, h, _ => by simp [unitsLt] at h
  | [], _ :: _, [], _, h => by simp [unitsLt] at h
  | [], _ :: _, _ :: _, _, _ => by simp [unitsLt]
  | _ :: _, [], _, h, _ => by simp [unitsLt] at h
  | _ :: _, _ :: _, [], _, h => by simp [unitsLt] at h
  | x :: xs, y :: ys, z :: zs, h1, h2 => by
    simp only [unitsLt] at h1 h2 ⊢
    split at h1
    · split at h2
      · have : x < z := by omega
        simp [this]
      · split at h2
        · simp at h2
        · have : x < z := by omega
          simp [this]
    · split at h1
      · simp at h1
      · split at h2
        · have : x < z := by omega
          simp [this]
        · split at h2
          · simp at h2
          · have e1 : ¬ x < z := by omega
            have e2 : ¬ z < x := by omega
            simp only [e1, e2, if_false]
            exact unitsLt_trans xs ys zs h1 h2

theorem unitsLt_trichotomy : ∀ (a b : List Nat), unitsLt a b = false → unitsLt b a = false → a = b
  | [], [], _, _ => rfl
  | [], _ :: _, h, _ => by simp [unitsLt] at h
  | _ :: _, [], _, h => by simp [unitsLt] at h
  | x :: xs, y :: ys, h1, h2 => by
    simp only [unitsLt] at h1 h2
    split at h1
    · simp at h1
    · split at h1
      · rename_i h3 h4
        simp [h4] at h2
      · rename_i h3 h4
        simp only [h3, h4, if_false] at h2
        have : x = y := by omega
        rw [this, unitsLt_trichotomy xs ys h1 h2]

theorem unitsLt_asymm (a b : List Nat) (h : unitsLt a b = true) : unitsLt b a = false := by
  cases hba : unitsLt b a with
  | false => rfl
  | true =>
    have := unitsLt_trans a b a h hba
    rw [unitsLt_irrefl] at this
    cases this

/-- A character is determined by its code units, also in front of further units. -/
theorem utf16Char_append_inj (c d : Char) (r s : List Nat)
    (h : utf16Char c ++ r = utf16Char d ++ s) : c = d ∧ r = s := by
  have hc : c.toNat < 0xD800 ∨ (0xDFFF < c.toNat ∧ c.toNat < 0x110000) := c.valid
  have hd : d.toNat < 0xD800 ∨ (0xDFFF < d.toNat ∧ d.toNat < 0x110000) := d.valid
  have key : c.toNat = d.toNat ∧ r = s := by
    unfold utf16Char at h
    split at h <;> split at h
    · simp only [List.cons_append, List.nil_append, List.cons.injEq] at h
      exact h
    · simp only [List.cons_append, List.nil_append, List.cons.injEq] at h
      omega
    · simp only [List.cons_append, List.nil_append, List.cons.injEq] at h
      omega
    · simp only [List.cons_append, List.nil_append, List.cons.injEq] at h
      refine ⟨by omega, h.2.2⟩
  refine ⟨?_, key.2⟩
  apply Char.ext
  apply UInt32.ext
  exact key.1

theorem flatMap_utf16Char_inj : ∀ (a b : List Char),
    a.flatMap utf16Char = b.flatMap utf16Char → a = b
  | [], [], _ => rfl
  | [], d :: ds, h => by
    simp only [List.flatMap_nil, List.flatMap_cons] at h
    unfold utf16Char at h
    split at h <;> simp at h
  | c :: cs, [], h => by
    simp only [List.flatMap_nil, List.flatMap_cons] at h
    unfold utf16Char at h
    split at h <;> simp at h
  | c :: cs, d :: ds, h => by
    simp only [List.flatMap_cons] at h
    obtain ⟨h1, h2⟩ := utf16Char_append_inj c d _ _ h
    rw [h1, flatMap_utf16Char_inj cs ds h2]

theorem utf16_inj (a b : String) (h : utf16 a = utf16 b) : a = b := by
  unfold utf16 at h
  have := flatMap_utf16Char_inj _ _ h
  exact String.ext this

theorem strLt_irrefl (a : String) : strLt a a = false := unitsLt_irrefl _

theorem strLE_total (a b : String) : strLE a b ∨ strLE b a := by
  unfold strLE strLt
  cases h : unitsLt (utf16 b) (utf16 a) with
  | false => left; rfl
  | true => right; exact unitsLt_asymm _ _ h

theorem strLE_trans (a b c : String) (h1 : strLE a b) (h2 : strLE b c) : strLE a c := by
  unfold strLE strLt at *
  cases h : unitsLt (utf16 c) (utf16 a) with
  | false => rfl
  | true =>
    cases hab : unitsLt (utf16 a) (utf16 b) with
    | true =>
      have := unitsLt_trans _ _ _ h hab
      rw [h2] at this; cases this
    | false =>
      have e := unitsLt_trichotomy _ _ hab h1
      rw [e] at h
      rw [h2] at h; cases h

theorem strLE_antisymm (a b : String) (h1 : strLE a b) (h2 : strLE b a) : a = b :=
  utf16_inj a b (unitsLt_trichotomy _ _ h2 h1)

theorem strLt_of_strLE_of_ne (a b : String) (h : strLE a b) (hne : a ≠ b) : strLt a b = true := by
  cases hab : strLt a b with
  | true => rfl
  | false => exact absurd (strLE_antisymm a b h hab) hne


/-- The sorted key list does not depend on the order in which the keys are listed. -/
theorem insertionSort_strLE_perm (a b : List String) (h : a.Perm b) :
    a.insertionSort strLE = b.insertionSort strLE := by
  haveI : IsTotal String strLE := ⟨strLE_total⟩
  haveI : IsTrans String strLE := ⟨strLE_trans⟩
  haveI : IsAntisymm String strLE := ⟨strLE_antisymm⟩
  exact List.eq_of_perm_of_sorted
    (((List.perm_insertionSort strLE a).trans h).trans (List.perm_insertionSort strLE b).symm)
    (List.sorted_insertionSort strLE a) (List.sorted_insertionSort strLE b)

theorem sortBefore_of_ne (x y : JSValue) (hx : x ≠ .undefined) (hy : y ≠ .undefined) :
    sortBefore x y = !strLt y.toStr x.toStr := by
  cases x <;> cases y <;> first | rfl | exact absurd rfl hx | exact absurd rfl hy

theorem sortBefore_undefined_right (x : JSValue) : sortBefore x .undefined = true := by
  cases x <;> rfl

theorem sortBefore_undefined_left (y : JSValue) (hy : y ≠ .undefined) :
    sortBefore .undefined y = false := by
  cases y <;> first | rfl | exact absurd rfl hy

theorem sortLE_total (x y : JSValue) : sortLE x y ∨ sortLE y x := by
  unfold sortLE
  by_cases hy : y = .undefined
  · subst hy; left; exact sortBefore_undefined_right x
  · by_cases hx : x = .undefined
    · subst hx; right; exact sortBefore_undefined_right y
    · rw [sortBefore_of_ne x y hx hy, sortBefore_of_ne y x hy hx]
      rcases strLE_total x.toStr y.toStr with h | h
      · left; unfold strLE at h; simp [h]
      · right; unfold strLE at h; simp [h]

theorem sortLE_trans (x y z : JSValue) (h1 : sortLE x y) (h2 : sortLE y z) : sortLE x z := by
  unfold sortLE at *
  by_cases hz : z = .undefined
  · subst hz; exact sortBefore_undefined_right x
  · by_cases hy : y = .undefined
    · subst hy
      rw [sortBefore_undefined_left z hz] at h2; cases h2
    · by_cases hx : x = .undefined
      · subst hx
        rw [sortBefore_undefined_left y hy] at h1; cases h1
      · rw [sortBefore_of_ne x y hx hy] at h1
        rw [sortBefore_of_ne y z hy hz] at h2
        rw [sortBefore_of_ne x z hx hz]
        have e1 : strLE x.toStr y.toStr := by unfold strLE; simpa using h1
        have e2 : strLE y.toStr z.toStr := by unfold strLE; simpa using h2
        have e3 := strLE_trans _ _ _ e1 e2
        unfold strLE at e3
        simp [e3]


/-! ## Theorems: the accumulator of `group` -/

theorem Grouped.get_nil (k : String) : Grouped.get ([] : Grouped Node) k = none := rfl

theorem Grouped.get_cons (p : String × List Node) (acc : Grouped Node) (k : String) :
    Grouped.get (p :: acc) k = if p.1 = k then some p.2 else Grouped.get acc k := by
  unfold Grouped.get
  by_cases h : p.1 = k <;> simp [List.find?_cons, h]

theorem Grouped.get_eq_none_iff (acc : Grouped Node) (k : String) :
    acc.get k = none ↔ k ∉ acc.map Prod.fst := by
  induction acc with
  | nil => simp [Grouped.get_nil]
  | cons p acc ih =>
    rw [Grouped.get_cons]
    by_cases h : p.1 = k
    · simp [h]
    · simp only [h, if_false, ih, List.map_cons, List.mem_cons, not_or]
      constructor
      · intro h2; exact ⟨fun e => h e.symm, h2⟩
      · intro h2; exact h2.2

theorem Grouped.any_iff (acc : Grouped Node) (k : String) :
    acc.any (fun p => p.1 == k) = true ↔ k ∈ acc.map Prod.fst := by
  simp only [List.any_eq_true, beq_iff_eq, List.mem_map]

theorem Grouped.keys_set (acc : Grouped Node) (k : String) (v : List Node) :
    (acc.set k v).map Prod.fst =
      if k ∈ acc.map Prod.fst then acc.map Prod.fst else acc.map Prod.fst ++ [k] := by
  unfold Grouped.set
  by_cases h : k ∈ acc.map Prod.fst
  · rw [if_pos ((Grouped.any_iff acc k).mpr h), if_pos h, List.map_map]
    apply List.map_congr_left
    intro p _
    by_cases e : p.1 = k <;> simp [e]
  · have h2 : ¬ (acc.any (fun p => p.1 == k) = true) := fun c => h ((Grouped.any_iff acc k).mp c)
    rw [if_neg h2, if_neg h]
    simp

theorem Grouped.get_map_replace (acc : Grouped Node) (k : String) (v : List Node) (j : String) :
    Grouped.get (acc.map (fun p => if p.1 == k then (p.1, v) else p)) j =
      if j = k then (acc.get k).map (fun _ => v) else acc.get j := by
  induction acc with
  | nil => simp [Grouped.get_nil]
  | cons p acc ih =>
    rw [List.map_cons, Grouped.get_cons, ih, Grouped.get_cons, Grouped.get_cons]
    by_cases hpk : p.1 = k
    · have e : (if (p.1 == k) = true then (p.1, v) else p) = (p.1, v) := by simp [hpk]
      rw [e]
      by_cases hjk : j = k
      · subst hjk; simp [hpk]
      · have : ¬ (p.1 = j) := fun e => hjk (e.symm.trans hpk)
        simp [hjk, this]
    · have e : (if (p.1 == k) = true then (p.1, v) else p) = p := by simp [hpk]
      rw [e]
      by_cases hjk : j = k
      · subst hjk; simp [hpk]
      · simp [hjk]

theorem Grouped.get_append_singleton (acc : Grouped Node) (k : String) (v : List Node)
    (j : String) :
    Grouped.get (acc ++ [(k, v)]) j =
      match acc.get j with
      | some l => some l
      | none => if k = j then some v else none := by
  induction acc with
  | nil => simp [Grouped.get_cons, Grouped.get_nil]
  | cons p acc ih =>
    rw [List.cons_append, Grouped.get_cons, Grouped.get_cons, ih]
    by_cases h : p.1 = j <;> simp [h]

theorem Grouped.get_set (acc : Grouped Node) (k : String) (v : List Node) (j : String) :
    (acc.set k v).get j = if j = k then some v else acc.get j := by
  unfold Grouped.set
  by_cases h : k ∈ acc.map Prod.fst
  · rw [if_pos ((Grouped.any_iff acc k).mpr h), Grouped.get_map_replace]
    by_cases hjk : j = k
    · simp only [hjk, if_true]
      cases hg : acc.get k with
      | none => exact absurd h ((Grouped.get_eq_none_iff acc k).mp hg)
      | some l => rfl
    · simp [hjk]
  · have h2 : ¬ (acc.any (fun p => p.1 == k) = true) := fun c => h ((Grouped.any_iff acc k).mp c)
    rw [if_neg h2, Grouped.get_append_singleton]
    by_cases hjk : j = k
    · subst hjk
      rw [(Grouped.get_eq_none_iff acc j).mpr h]
    · have : ¬ (k = j) := fun e => hjk e.symm
      simp only [hjk, this, if_false]
      cases acc.get j <;> rfl

/-- One step of the accumulation: file the node of a membership under its key. -/
theorem foldl_memberships (g : Grouped Node → String × Node → Grouped Node)
    (f : Edge Node → List JSValue) (edges : List (Edge Node)) (acc : Grouped Node) :
    edges.foldl (fun acc e => (f e).foldl (fun acc v => g acc (groupKey v, e.node)) acc) acc =
      (edges.flatMap fun e => (f e).map fun v => (groupKey v, e.node)).foldl g acc := by
  induction edges generalizing acc with
  | nil => rfl
  | cons e es ih =>
    rw [List.foldl_cons, ih, List.flatMap_cons, List.foldl_append, List.foldl_map]

theorem groupedResults_eq (getValueAt : Node → String → JSValue) (source : Page Node)
    (field : String) :
    groupedResults getValueAt source field =
      (memberships getValueAt source field).foldl
        (fun acc m => Grouped.set acc m.1 ((Grouped.get acc m.1).getD [] ++ [m.2])) [] := by
  unfold groupedResults memberships
  exact foldl_memberships (fun acc m => Grouped.set acc m.1 ((Grouped.get acc m.1).getD [] ++ [m.2]))
    (fun e => groupValues (extract getValueAt e.node field)) source.edges []

theorem accumulate_keys_nodup (ms : List (String × Node)) (acc : Grouped Node)
    (h : (acc.map Prod.fst).Nodup) :
    ((ms.foldl (fun acc m => Grouped.set acc m.1 ((Grouped.get acc m.1).getD [] ++ [m.2])) acc).map
      Prod.fst).Nodup := by
  induction ms generalizing acc with
  | nil => exact h
  | cons m ms ih =>
    rw [List.foldl_cons]
    apply ih
    rw [Grouped.keys_set]
    split
    · exact h
    · rename_i hk
      rw [List.nodup_append]
      refine ⟨h, List.nodup_singleton _, ?_⟩
      intro a ha hb
      rw [List.mem_singleton] at hb
      subst hb
      exact hk ha

theorem accumulate_mem_keys (ms : List (String × Node)) (acc : Grouped Node) (k : String) :
    k ∈ (ms.foldl (fun acc m => Grouped.set acc m.1 ((Grouped.get acc m.1).getD [] ++ [m.2])) acc).map Prod.fst
      ↔ k ∈ acc.map Prod.fst ∨ k ∈ ms.map Prod.fst := by
  induction ms generalizing acc with
  | nil => simp
  | cons m ms ih =>
    rw [List.foldl_cons, ih, Grouped.keys_set]
    split
    · rename_i hk
      simp only [List.map_cons, List.mem_cons]
      constructor
      · rintro (h | h)
        · exact Or.inl h
        · exact Or.inr (Or.inr h)
      · rintro (h | h | h)
        · exact Or.inl h
        · exact Or.inl (h ▸ hk)
        · exact Or.inr h
    · simp only [List.map_cons, List.mem_cons, List.mem_append, List.not_mem_nil, or_false]
      constructor
      · rintro ((h | h) | h)
        · exact Or.inl h
        · exact Or.inr (Or.inl h)
        · exact Or.inr (Or.inr h)
      · rintro (h | h | h)
        · exact Or.inl (Or.inl h)
        · exact Or.inl (Or.inr h)
        · exact Or.inr h

theorem filter_key_eq_nil (ms : List (String × Node)) (k : String)
    (h : k ∉ ms.map Prod.fst) : ms.filter (fun m => m.1 == k) = [] := by
  rw [List.filter_eq_nil_iff]
  intro m hm
  simp only [beq_iff_eq]
  intro e
  exact h (List.mem_map.mpr ⟨m, hm, e⟩)

theorem accumulate_get (ms : List (String × Node)) (acc : Grouped Node) (k : String) :
    (ms.foldl (fun acc m => Grouped.set acc m.1 ((Grouped.get acc m.1).getD [] ++ [m.2])) acc).get k =
      if k ∈ ms.map Prod.fst then
        some ((acc.get k).getD [] ++ (ms.filter fun m => m.1 == k).map Prod.snd)
      else acc.get k := by
  induction ms generalizing acc with
  | nil => simp
  | cons m ms ih =>
    rw [List.foldl_cons, ih, Grouped.get_set]
    by_cases hkm : k = m.1
    · subst hkm
      have hmem : m.1 ∈ (m :: ms).map Prod.fst := by simp
      rw [if_pos hmem, if_pos rfl]
      by_cases hin : m.1 ∈ ms.map Prod.fst
      · rw [if_pos hin]
        simp [List.filter_cons]
      · rw [if_neg hin]
        simp [List.filter_cons, filter_key_eq_nil ms m.1 hin]
    · have hne : ¬ (m.1 = k) := fun e => hkm e.symm
      rw [if_neg hkm]
      by_cases hin : k ∈ ms.map Prod.fst
      · have hmem : k ∈ (m :: ms).map Prod.fst := by simp [hin]
        rw [if_pos hin, if_pos hmem]
        simp [List.filter_cons, hne]
      · have hmem : k ∉ (m :: ms).map Prod.fst := by
          simp only [List.map_cons, List.mem_cons, not_or]
          exact ⟨hkm, hin⟩
        rw [if_neg hin, if_neg hmem]

theorem groupedResults_keys_nodup (getValueAt : Node → String → JSValue) (source : Page Node)
    (field : String) : ((groupedResults getValueAt source field).map Prod.fst).Nodup := by
  rw [groupedResults_eq]
  exact accumulate_keys_nodup _ [] List.nodup_nil

theorem groupedResults_mem_keys (getValueAt : Node → String → JSValue) (source : Page Node)
    (field : String) (k : String) :
    k ∈ (groupedResults getValueAt source field).map Prod.fst ↔
      k ∈ (memberships getValueAt source field).map Prod.fst := by
  rw [groupedResults_eq, accumulate_mem_keys]
  simp

theorem groupedResults_get (getValueAt : Node → String → JSValue) (source : Page Node)
    (field : String) (k : String)
    (hk : k ∈ (memberships getValueAt source field).map Prod.fst) :
    (groupedResults getValueAt source field).get k =
      some (membersOf getValueAt source field k) := by
  rw [groupedResults_eq, accumulate_get, if_pos hk]
  simp [membersOf, Grouped.get_nil]

theorem mem_memberships_keys (getValueAt : Node → String → JSValue) (source : Page Node)
    (field : String) (k : String) :
    k ∈ (memberships getValueAt source field).map Prod.fst ↔
      ∃ e ∈ source.edges, ∃ v ∈ groupValues (extract getValueAt e.node field),
        groupKey v = k := by
  unfold memberships
  simp only [List.mem_map, List.mem_flatMap]
  constructor
  · rintro ⟨m, ⟨e, he, v, hv, rfl⟩, rfl⟩
    exact ⟨e, he, v, hv, rfl⟩
  · rintro ⟨e, he, v, hv, rfl⟩
    exact ⟨(groupKey v, e.node), ⟨e, he, v, hv, rfl⟩, rfl⟩

/-! ## Theorems: `group` and `distinct` -/

theorem group_fieldValues (getValueAt : Node → String → JSValue) (source : Page Node)
    (args : GroupArgs) :
    (group getValueAt source args).map (fun g => g.fieldValue) =
      ((groupedResults getValueAt source args.field).map Prod.fst).insertionSort strLE := by
  unfold group
  simp only [List.map_map]
  exact List.map_id _

theorem sortedKeys_mem (getValueAt : Node → String → JSValue) (source : Page Node)
    (field : String) (k : String) :
    k ∈ ((groupedResults getValueAt source field).map Prod.fst).insertionSort strLE ↔
      k ∈ (memberships getValueAt source field).map Prod.fst := by
  rw [(List.perm_insertionSort strLE _).mem_iff, groupedResults_mem_keys]

theorem sortedKeys_nodup (getValueAt : Node → String → JSValue) (source : Page Node)
    (field : String) :
    (((groupedResults getValueAt source field).map Prod.fst).insertionSort strLE).Nodup :=
  (List.perm_insertionSort strLE _).nodup_iff.mpr (groupedResults_keys_nodup _ _ _)

theorem group_eq_map_membersOf (getValueAt : Node → String → JSValue) (source : Page Node)
    (args : GroupArgs) :
    group getValueAt source args =
      (((groupedResults getValueAt source args.field).map Prod.fst).insertionSort strLE).map
        fun k =>
          { toPage := paginate (some (membersOf getValueAt source args.field k))
              ⟨args.skip, args.limit⟩
            field := args.field
            fieldValue := k } := by
  unfold group
  apply List.map_congr_left
  intro k hk
  rw [groupedResults_get getValueAt source args.field k ((sortedKeys_mem _ _ _ k).mp hk)]

theorem sum_indicator (ks : List String) (a : String) (hnd : ks.Nodup) :
    (ks.map fun k => if a = k then 1 else 0).sum = if a ∈ ks then 1 else 0 := by
  induction ks with
  | nil => simp
  | cons k ks ih =>
    rw [List.nodup_cons] at hnd
    rw [List.map_cons, List.sum_cons, ih hnd.2]
    by_cases h : a = k
    · subst h
      simp [hnd.1]
    · simp [h]

theorem sum_filter_keys (ms : List (String × Node)) (ks : List String) (hnd : ks.Nodup)
    (hall : ∀ m ∈ ms, m.1 ∈ ks) :
    (ks.map fun k => (ms.filter fun m => m.1 == k).length).sum = ms.length := by
  induction ms with
  | nil => simp
  | cons m ms ih =>
    have h1 : ∀ k, ((m :: ms).filter fun m => m.1 == k).length =
        (ms.filter fun m => m.1 == k).length + (if m.1 = k then 1 else 0) := by
      intro k
      by_cases h : m.1 = k <;> simp [List.filter_cons, h]
    simp only [h1]
    rw [List.sum_map_add, ih (fun x hx => hall x (List.mem_cons_of_mem _ hx)),
      sum_indicator ks m.1 hnd, if_pos (hall m (List.mem_cons_self _ _))]
    simp

theorem length_groupValues (v : JSValue) : (groupValues v).length = nonNullCount v := by
  cases v <;> simp [groupValues, nonNullCount, JSValue.isNullish, List.countP_eq_length_filter]

theorem length_memberships (getValueAt : Node → String → JSValue) (source : Page Node)
    (field : String) :
    (memberships getValueAt source field).length =
      (source.edges.map fun e => nonNullCount (extract getValueAt e.node field)).sum := by
  unfold memberships
  induction source.edges with
  | nil => rfl
  | cons e es ih =>
    rw [List.flatMap_cons, List.length_append, ih, List.map_cons, List.sum_cons,
      List.length_map, length_groupValues]

/-- C7: group returns one entry per distinct key, in strictly ascending key
order (string comparison by code units); the entry for key k is
paginate(members_k, {skip, limit}) with field and fieldValue = k, where members_k
lists, in result-set order, the nodes having k among their non-null extracted
values, once per array element. On the five colour nodes the result is the two
groups blue and red, each with 2 nodes and pageCount 1. -/
theorem group_contract (getValueAt : Node → String → JSValue) (source : Page Node)
    (args : GroupArgs) :
    ((group getValueAt source args).map fun g => g.fieldValue).Pairwise
      (fun a b => strLt a b = true) ∧
    ((group getValueAt source args).map fun g => g.fieldValue).Nodup ∧
    (∀ k, (k ∈ (group getValueAt source args).map fun g => g.fieldValue) ↔
      ∃ e ∈ source.edges, ∃ v ∈ groupValues (extract getValueAt e.node args.field),
        groupKey v = k) ∧
    group getValueAt source args =
      (((group getValueAt source args).map fun g => g.fieldValue).map fun k =>
        { toPage := paginate (some (membersOf getValueAt source args.field k))
            ⟨args.skip, args.limit⟩
          field := args.field
          fieldValue := k }) ∧
    ((group ColorNode.getValueAt (paginate (some colorNodes) ⟨none, none⟩)
        ⟨"color", none, none⟩).map fun g =>
          (g.fieldValue, g.nodes.map (fun n => n.id), g.pageInfo.pageCount))
      = [("blue", [1, 5], 1), ("red", [1, 2], 1)] := by
  have hs : (((groupedResults getValueAt source args.field).map Prod.fst).insertionSort
      strLE).Sorted strLE :=
    @List.sorted_insertionSort _ strLE _ ⟨strLE_total⟩ ⟨strLE_trans⟩ _
  have hn := sortedKeys_nodup getValueAt source args.field
  refine ⟨?_, ?_, ?_, ?_, ?_⟩
  · rw [group_fieldValues]
    exact (List.Pairwise.and hs hn).imp fun h => strLt_of_strLE_of_ne _ _ h.1 h.2
  · rw [group_fieldValues]
    exact hn
  · intro k
    rw [group_fieldValues, sortedKeys_mem, mem_memberships_keys]
  · rw [group_fieldValues]
    exact group_eq_map_membersOf getValueAt source args
  · decide

/-- C8: the pre-pagination sizes (totalCount) of all groups add up to the number
of non-null values extracted from the nodes, each non-null element of an
array-valued field counted once and null/undefined values and elements not
counted. -/
theorem group_totalCount_sum (getValueAt : Node → String → JSValue) (source : Page Node)
    (args : GroupArgs) :
    ((group getValueAt source args).map fun g => g.totalCount).sum =
      (source.edges.map fun e => nonNullCount (extract getValueAt e.node args.field)).sum := by
  rw [group_eq_map_membersOf, List.map_map, ← length_memberships]
  have h : ∀ k, ((fun (g : Group Node) => g.totalCount) ∘ fun k =>
      ({ toPage := paginate (some (membersOf getValueAt source args.field k))
            ⟨args.skip, args.limit⟩
         field := args.field
         fieldValue := k } : Group Node)) k =
      ((memberships getValueAt source args.field).filter fun m => m.1 == k).length := by
    intro k
    simp [paginate_totalCount, membersOf]
  rw [List.map_congr_left (fun k _ => h k)]
  apply sum_filter_keys _ _ (sortedKeys_nodup getValueAt source args.field)
  intro m hm
  exact (sortedKeys_mem getValueAt source args.field m.1).mpr (List.mem_map.mpr ⟨m, hm, rfl⟩)

theorem sameValueZero_symm (a b : JSValue) : sameValueZero a b = sameValueZero b a := by
  cases a <;> cases b <;> simp [sameValueZero, eq_comm]

theorem sameValueZero_refl (a : JSValue) : sameValueZero a a = true := by
  cases a <;> simp [sameValueZero]

theorem setFrom_pairwise (values : List JSValue) :
    (setFrom values).Pairwise fun a b => sameValueZero a b = false := by
  unfold setFrom
  suffices h : ∀ acc : List JSValue, acc.Pairwise (fun a b => sameValueZero a b = false) →
      (values.foldl (fun acc v =>
        if acc.any (fun w => sameValueZero w v) then acc else acc ++ [v]) acc).Pairwise
        fun a b => sameValueZero a b = false from h [] List.Pairwise.nil
  induction values with
  | nil => intro acc h; exact h
  | cons v vs ih =>
    intro acc h
    rw [List.foldl_cons]
    apply ih
    split
    · exact h
    · rename_i hany
      rw [List.pairwise_append]
      refine ⟨h, List.pairwise_singleton _ _, ?_⟩
      intro a ha b hb
      rw [List.mem_singleton] at hb
      subst hb
      cases hab : sameValueZero a b with
      | false => rfl
      | true => exact absurd (List.any_eq_true.mpr ⟨a, ha, hab⟩) hany

/-- C9: the list returned by distinct holds no value twice (no two entries are
the same value for Set) and is in ascending order for sort() without a
comparator: string conversions compared by code units, undefined last. -/
theorem distinct_sorted_nodup (getValueAt : Node → String → JSValue) (source : Page Node)
    (field : String) :
    (distinct getValueAt source field).Pairwise (fun a b => sameValueZero a b = false) ∧
    (distinct getValueAt source field).Nodup ∧
    (distinct getValueAt source field).Sorted sortLE := by
  have hp : (distinct getValueAt source field).Pairwise
      (fun a b => sameValueZero a b = false) := by
    unfold distinct
    refine (List.Perm.pairwise_iff ?_ (List.perm_insertionSort sortLE _)).mpr
      (setFrom_pairwise _)
    intro a b h
    rw [sameValueZero_symm]
    exact h
  refine ⟨hp, ?_, @List.sorted_insertionSort _ sortLE _ ⟨sortLE_total⟩ ⟨sortLE_trans⟩ _⟩
  refine hp.imp ?_
  intro a b h e
  subst e
  rw [sameValueZero_refl] at h
  cases h

/-- C10 (failing input): for one node whose extracted value is the array
["a", null], distinct returns the null element, while group on the same input
files the node under the key "a" only. -/
theorem distinct_keeps_null_element :
    distinct ColorNode.getValueAt (paginate (some nullElementNodes) ⟨none, none⟩) "color"
      = [.str "a", .null] ∧
    (group ColorNode.getValueAt (paginate (some nullElementNodes) ⟨none, none⟩)
      ⟨"color", none, none⟩).map (fun g => g.fieldValue) = ["a"] := by
  constructor
  · rfl
  · decide


/-! ## Theorems: page numbers across pages -/

theorem paginate_limit_fields (items : List α) (S L : Int) (hL : L ≠ 0) :
    (paginate (some items) ⟨some S, some L⟩).pageInfo.currentPage = ceilDiv S L + 1 ∧
    (paginate (some items) ⟨some S, some L⟩).pageInfo.pageCount
      = ceilDiv S L + ceilDiv ((items.length : Int) - S) L ∧
    ((paginate (some items) ⟨some S, some L⟩).pageInfo.hasNextPage = true ↔
      S + L < (items.length : Int)) := by
  simp [paginate, hL]

/-- C19: for skip ≥ 0 and limit unset or a positive integer, the page returned by
paginate has hasNextPage = true if and only if currentPage < pageCount. -/
theorem paginate_hasNextPage_iff_currentPage_lt (items : List α) (S : Nat) (limit : Option Int)
    (hlim : ∀ L, limit = some L → 0 < L) :
    (paginate (some items) ⟨some (S : Int), limit⟩).pageInfo.hasNextPage = true ↔
      (paginate (some items) ⟨some (S : Int), limit⟩).pageInfo.currentPage <
        (paginate (some items) ⟨some (S : Int), limit⟩).pageInfo.pageCount := by
  cases limit with
  | none => simp [paginate]
  | some L =>
    have hL : 0 < L := hlim L rfl
    obtain ⟨h1, h2, h3⟩ := paginate_limit_fields items (S : Int) L (ne_of_gt hL)
    rw [h1, h2, h3]
    have hc := ceilDiv_spec ((items.length : Int) - (S : Int)) L hL
    constructor
    · intro h
      have : 1 < ceilDiv ((items.length : Int) - (S : Int)) L := by
        by_contra hh
        have : ceilDiv ((items.length : Int) - (S : Int)) L ≤ 1 := by omega
        nlinarith [hc.1]
      omega
    · intro h
      have : 2 ≤ ceilDiv ((items.length : Int) - (S : Int)) L := by omega
      nlinarith [hc.2]

theorem paginate_hasNextPage_iff_currentPage_lt_witness :
    (∀ L : Int, (some 2 : Option Int) = some L → 0 < L) ∧
    ((paginate (some [10, 20, 30, 40, 50]) ⟨some ((1 : Nat) : Int), some 2⟩).pageInfo.hasNextPage = true ↔
      (paginate (some [10, 20, 30, 40, 50]) ⟨some ((1 : Nat) : Int), some 2⟩).pageInfo.currentPage <
        (paginate (some [10, 20, 30, 40, 50]) ⟨some ((1 : Nat) : Int), some 2⟩).pageInfo.pageCount) :=
  ⟨by intro L h; cases h; decide,
   paginate_hasNextPage_iff_currentPage_lt [10, 20, 30, 40, 50] 1 (some 2)
     (by intro L h; cases h; decide)⟩

theorem ceilDiv_add_mul (a k L : Int) (hL : 0 < L) : ceilDiv (a + k * L) L = ceilDiv a L + k := by
  have h1 := ceilDiv_spec (a + k * L) L hL
  have h2 := ceilDiv_spec a L hL
  have a1 : ceilDiv (a + k * L) L ≤ ceilDiv a L + k := by
    by_contra hh
    have : ceilDiv a L + k + 1 ≤ ceilDiv (a + k * L) L := by omega
    nlinarith [h1.2, h2.1]
  have a2 : ceilDiv a L + k ≤ ceilDiv (a + k * L) L := by
    by_contra hh
    have : ceilDiv (a + k * L) L + 1 ≤ ceilDiv a L + k := by omega
    nlinarith [h1.1, h2.2]
  omega

theorem ceilDiv_mul_self (k L : Int) (hL : 0 < L) : ceilDiv (k * L) L = k := by
  have h := ceilDiv_add_mul 0 k L hL
  have h0 : ceilDiv 0 L = 0 := by
    have hz := ceilDiv_spec 0 L hL
    have a1 : ceilDiv 0 L ≤ 0 := by
      by_contra hh
      have : 1 ≤ ceilDiv 0 L := by omega
      nlinarith [hz.2]
    have a2 : 0 ≤ ceilDiv 0 L := by
      by_contra hh
      have : ceilDiv 0 L ≤ -1 := by omega
      nlinarith [hz.1]
    omega
  simpa [h0] using h

theorem flatMap_range_pages (items : List α) (L P : Nat) :
    (List.range P).flatMap (fun k => (items.drop (k * L)).take L) = items.take (P * L) := by
  induction P with
  | zero => simp
  | succ P ih =>
    rw [List.range_succ, List.flatMap_append, ih, List.flatMap_singleton, Nat.succ_mul,
      List.take_add]

/-- C20: with P the pageCount reported for skip 0 and limit L > 0, the nodes of
the pages at skip k*L, k = 0 … P-1, concatenate to exactly the items, and the
k-th of these pages reports currentPage = k+1 and pageCount = P. -/
theorem paginate_pages_cover (items : List α) (L : Nat) (hL : 0 < L) :
    ((List.range (paginate (some items) ⟨some 0, some (L : Int)⟩).pageInfo.pageCount.toNat).flatMap
      fun k => (paginate (some items) ⟨some ((k * L : Nat) : Int), some (L : Int)⟩).nodes) = items ∧
    ∀ k : Nat, k < (paginate (some items) ⟨some 0, some (L : Int)⟩).pageInfo.pageCount.toNat →
      (paginate (some items) ⟨some ((k * L : Nat) : Int), some (L : Int)⟩).pageInfo.currentPage
        = (k : Int) + 1 ∧
      (paginate (some items) ⟨some ((k * L : Nat) : Int), some (L : Int)⟩).pageInfo.pageCount
        = (paginate (some items) ⟨some 0, some (L : Int)⟩).pageInfo.pageCount := by
  have hLi : (0 : Int) < (L : Int) := by omega
  have hne : (L : Int) ≠ 0 := ne_of_gt hLi
  have hP : (paginate (some items) ⟨some 0, some (L : Int)⟩).pageInfo.pageCount
      = ceilDiv (items.length : Int) (L : Int) := by
    rw [(paginate_limit_fields items 0 (L : Int) hne).2.1]
    have := ceilDiv_mul_self 0 (L : Int) hLi
    simp only [zero_mul] at this
    simp [this]
  have hc := ceilDiv_spec (items.length : Int) (L : Int) hLi
  have hnn := ceilDiv_nonneg (items.length : Int) (L : Int) (Int.ofNat_nonneg _) hLi
  constructor
  · rw [hP]
    have e : ∀ k : Nat, (paginate (some items) ⟨some ((k * L : Nat) : Int), some (L : Int)⟩).nodes
        = (items.drop (k * L)).take L := fun k => paginate_nodes_limit items (k * L) L hL
    simp only [e]
    rw [flatMap_range_pages]
    apply List.take_of_length_le
    have h1 : ((ceilDiv (items.length : Int) (L : Int)).toNat : Int)
        = ceilDiv (items.length : Int) (L : Int) := Int.toNat_of_nonneg hnn
    have h2 : (items.length : Int)
        ≤ (((ceilDiv (items.length : Int) (L : Int)).toNat * L : Nat) : Int) := by
      push_cast
      rw [h1]
      nlinarith [hc.1]
    exact_mod_cast h2
  · intro k _
    obtain ⟨h1, h2, _⟩ := paginate_limit_fields items ((k * L : Nat) : Int) (L : Int) hne
    rw [h1, h2, hP]
    have ek : ((k * L : Nat) : Int) = (k : Int) * (L : Int) := by push_cast; rfl
    rw [ek, ceilDiv_mul_self (k : Int) (L : Int) hLi]
    have e2 : (items.length : Int) - (k : Int) * (L : Int)
        = (items.length : Int) + (-(k : Int)) * (L : Int) := by ring
    rw [e2, ceilDiv_add_mul _ _ _ hLi]
    constructor
    · rfl
    · ring

theorem paginate_pages_cover_witness :
    (0 < 2) ∧
    ((List.range (paginate (some [10, 20, 30, 40, 50]) ⟨some 0, some ((2 : Nat) : Int)⟩).pageInfo.pageCount.toNat).flatMap
      fun k => (paginate (some [10, 20, 30, 40, 50]) ⟨some ((k * 2 : Nat) : Int), some ((2 : Nat) : Int)⟩).nodes)
        = [10, 20, 30, 40, 50] ∧
    ∀ k : Nat, k < (paginate (some [10, 20, 30, 40, 50]) ⟨some 0, some ((2 : Nat) : Int)⟩).pageInfo.pageCount.toNat →
      (paginate (some [10, 20, 30, 40, 50]) ⟨some ((k * 2 : Nat) : Int), some ((2 : Nat) : Int)⟩).pageInfo.currentPage
        = (k : Int) + 1 ∧
      (paginate (some [10, 20, 30, 40, 50]) ⟨some ((k * 2 : Nat) : Int), some ((2 : Nat) : Int)⟩).pageInfo.pageCount
        = (paginate (some [10, 20, 30, 40, 50]) ⟨some 0, some ((2 : Nat) : Int)⟩).pageInfo.pageCount :=
  ⟨by decide, paginate_pages_cover [10, 20, 30, 40, 50] 2 (by decide)⟩

/-! ## Theorems: Date values and the resolved-value cache -/

/-- C11 (failing input): a Date that is an element of an array-valued field is
returned by distinct as the Date itself, while the Date that is the value of the
field is returned as its ISO string; group uses the ISO string for both. -/
theorem distinct_keeps_date_element :
    distinct ColorNode.getValueAt (paginate (some dateNodes) ⟨none, none⟩) "color"
      = [.str "2021-06-15T12:00:00.000Z",
         .date 2 "2020-01-01T00:00:00.000Z" "Wed Jan 01 2020 00:00:00 GMT+0000"] ∧
    (group ColorNode.getValueAt (paginate (some dateNodes) ⟨none, none⟩)
      ⟨"color", none, none⟩).map (fun g => g.fieldValue)
      = ["2020-01-01T00:00:00.000Z", "2021-06-15T12:00:00.000Z"] := by
  constructor
  · rfl
  · decide

/-- A truthy cached value is the value both resolvers aggregate over. -/
theorem extract_of_truthy (getValueAt : Node → String → JSValue) (node : Node) (field : String)
    (h : (getValueAt node ("__gatsby_resolved." ++ field)).toBoolean = true) :
    extract getValueAt node field = getValueAt node ("__gatsby_resolved." ++ field) := by
  simp [extract, JSValue.or, h]

/-- C12 (failing input): for nodes whose cached values are 0, false and the
empty string and whose raw values are 5, 6 and 7, distinct and group aggregate
over the raw values. -/
theorem falsy_cache_falls_back_to_raw :
    distinct CachedNode.getValueAt (paginate (some falsyCacheNodes) ⟨none, none⟩) "count"
      = [.num 5, .num 6, .num 7] ∧
    (group CachedNode.getValueAt (paginate (some falsyCacheNodes) ⟨none, none⟩)
      ⟨"count", none, none⟩).map (fun g => (g.fieldValue, g.nodes.map fun n => n.id))
      = [("5", [1]), ("6", [2]), ("7", [3])] := by
  constructor
  · rfl
  · decide

/-! ## Theorems: the selection-set walk -/

theorem foldl_collectStep_none (fragments : FragmentTable) (fieldName : String)
    (recurse : List Selection → Option (List Selection)) (selections : List Selection) :
    selections.foldl (collectStep fragments fieldName recurse) none = none := by
  induction selections with
  | nil => rfl
  | cons s rest ih => simpa [List.foldl_cons, collectStep] using ih

/-- The walk with enough fuel returns the fields of the relation `Collects`. -/
theorem collects_complete (fragments : FragmentTable) (fieldName : String)
    (selections found : List Selection) (h : Collects fragments fieldName selections found) :
    ∃ N, ∀ fuel, N ≤ fuel → ∀ acc : List Selection,
      selections.foldl
        (collectStep fragments fieldName (getFieldNodeByNameInSelectionSet fragments fieldName fuel))
        (some acc) = some (acc ++ found) := by
  induction h with
  | nil => exact ⟨0, fun fuel _ acc => by simp⟩
  | fieldNamed name arguments sub rest found hname _ ih =>
    obtain ⟨N, hN⟩ := ih
    refine ⟨N, fun fuel hf acc => ?_⟩
    rw [List.foldl_cons]
    have : collectStep fragments fieldName
        (getFieldNodeByNameInSelectionSet fragments fieldName fuel) (some acc)
        (.field name arguments sub) = some (acc ++ [.field name arguments sub]) := by
      simp [collectStep, hname]
    rw [this, hN fuel hf]
    simp
  | fieldOther name arguments sub rest found hname _ ih =>
    obtain ⟨N, hN⟩ := ih
    refine ⟨N, fun fuel hf acc => ?_⟩
    rw [List.foldl_cons]
    have : collectStep fragments fieldName
        (getFieldNodeByNameInSelectionSet fragments fieldName fuel) (some acc)
        (.field name arguments sub) = some acc := by
      simp [collectStep, hname]
    rw [this, hN fuel hf]
  | spreadMissing name rest found hmiss _ ih =>
    obtain ⟨N, hN⟩ := ih
    refine ⟨N, fun fuel hf acc => ?_⟩
    rw [List.foldl_cons]
    have : collectStep fragments fieldName
        (getFieldNodeByNameInSelectionSet fragments fieldName fuel) (some acc)
        (.fragmentSpread name) = some acc := by
      simp [collectStep, hmiss]
    rw [this, hN fuel hf]
  | spreadFound name body rest inner found hbody _ _ ih1 ih2 =>
    obtain ⟨N1, hN1⟩ := ih1
    obtain ⟨N2, hN2⟩ := ih2
    refine ⟨max (N1 + 1) N2, fun fuel hf acc => ?_⟩
    rw [List.foldl_cons]
    obtain ⟨fuel1, rfl⟩ : ∃ fuel1, fuel = fuel1 + 1 := ⟨fuel - 1, by omega⟩
    have hrec : getFieldNodeByNameInSelectionSet fragments fieldName (fuel1 + 1) body
        = some inner := by
      have := hN1 fuel1 (by omega) []
      simpa [getFieldNodeByNameInSelectionSet] using this
    have : collectStep fragments fieldName
        (getFieldNodeByNameInSelectionSet fragments fieldName (fuel1 + 1)) (some acc)
        (.fragmentSpread name) = some (acc ++ inner) := by
      simp [collectStep, hbody, hrec]
    rw [this, hN2 (fuel1 + 1) (by omega)]
    simp
  | inline selectionSet rest inner found _ _ ih1 ih2 =>
    obtain ⟨N1, hN1⟩ := ih1
    obtain ⟨N2, hN2⟩ := ih2
    refine ⟨max (N1 + 1) N2, fun fuel hf acc => ?_⟩
    rw [List.foldl_cons]
    obtain ⟨fuel1, rfl⟩ : ∃ fuel1, fuel = fuel1 + 1 := ⟨fuel - 1, by omega⟩
    have hrec : getFieldNodeByNameInSelectionSet fragments fieldName (fuel1 + 1) selectionSet
        = some inner := by
      have := hN1 fuel1 (by omega) []
      simpa [getFieldNodeByNameInSelectionSet] using this
    have : collectStep fragments fieldName
        (getFieldNodeByNameInSelectionSet fragments fieldName (fuel1 + 1)) (some acc)
        (.inlineFragment selectionSet) = some (acc ++ inner) := by
      simp [collectStep, hrec]
    rw [this, hN2 (fuel1 + 1) (by omega)]
    simp

/-- Whatever the walk returns, with any fuel, are the fields of `Collects`. -/
theorem collects_sound (fragments : FragmentTable) (fieldName : String) :
    ∀ (fuel : Nat) (selections found : List Selection),
      getFieldNodeByNameInSelectionSet fragments fieldName fuel selections = some found →
      Collects fragments fieldName selections found := by
  intro fuel
  induction fuel with
  | zero => intro selections found h; simp [getFieldNodeByNameInSelectionSet] at h
  | succ fuel ih =>
    have key : ∀ (selections : List Selection) (acc out : List Selection),
        selections.foldl (collectStep fragments fieldName
          (getFieldNodeByNameInSelectionSet fragments fieldName fuel)) (some acc) = some out →
        ∃ found, out = acc ++ found ∧ Collects fragments fieldName selections found := by
      intro selections
      induction selections with
      | nil =>
        intro acc out h
        simp only [List.foldl_nil, Option.some.injEq] at h
        exact ⟨[], by simp [h], Collects.nil⟩
      | cons s rest ihl =>
        intro acc out h
        rw [List.foldl_cons] at h
        cases s with
        | field name arguments sub =>
          by_cases hname : name = fieldName
          · have e : collectStep fragments fieldName
                (getFieldNodeByNameInSelectionSet fragments fieldName fuel) (some acc)
                (.field name arguments sub) = some (acc ++ [.field name arguments sub]) := by
              simp [collectStep, hname]
            rw [e] at h
            obtain ⟨found, ho, hc⟩ := ihl _ _ h
            exact ⟨.field name arguments sub :: found, by simp [ho],
              Collects.fieldNamed name arguments sub rest found hname hc⟩
          · have e : collectStep fragments fieldName
                (getFieldNodeByNameInSelectionSet fragments fieldName fuel) (some acc)
                (.field name arguments sub) = some acc := by
              simp [collectStep, hname]
            rw [e] at h
            obtain ⟨found, ho, hc⟩ := ihl _ _ h
            exact ⟨found, ho, Collects.fieldOther name arguments sub rest found hname hc⟩
        | fragmentSpread name =>
          cases hf : fragments name with
          | none =>
            have e : collectStep fragments fieldName
                (getFieldNodeByNameInSelectionSet fragments fieldName fuel) (some acc)
                (.fragmentSpread name) = some acc := by
              simp [collectStep, hf]
            rw [e] at h
            obtain ⟨found, ho, hc⟩ := ihl _ _ h
            exact ⟨found, ho, Collects.spreadMissing name rest found hf hc⟩
          | some body =>
            cases hr : getFieldNodeByNameInSelectionSet fragments fieldName fuel body with
            | none =>
              have e : collectStep fragments fieldName
                  (getFieldNodeByNameInSelectionSet fragments fieldName fuel) (some acc)
                  (.fragmentSpread name) = none := by
                simp [collectStep, hf, hr]
              rw [e, foldl_collectStep_none] at h
              cases h
            | some inner =>
              have e : collectStep fragments fieldName
                  (getFieldNodeByNameInSelectionSet fragments fieldName fuel) (some acc)
                  (.fragmentSpread name) = some (acc ++ inner) := by
                simp [collectStep, hf, hr]
              rw [e] at h
              obtain ⟨found, ho, hc⟩ := ihl _ _ h
              exact ⟨inner ++ found, by simp [ho],
                Collects.spreadFound name body rest inner found hf (ih _ _ hr) hc⟩
        | inlineFragment selectionSet =>
          cases hr : getFieldNodeByNameInSelectionSet fragments fieldName fuel selectionSet with
          | none =>
            have e : collectStep fragments fieldName
                (getFieldNodeByNameInSelectionSet fragments fieldName fuel) (some acc)
                (.inlineFragment selectionSet) = none := by
              simp [collectStep, hr]
            rw [e, foldl_collectStep_none] at h
            cases h
          | some inner =>
            have e : collectStep fragments fieldName
                (getFieldNodeByNameInSelectionSet fragments fieldName fuel) (some acc)
                (.inlineFragment selectionSet) = some (acc ++ inner) := by
              simp [collectStep, hr]
            rw [e] at h
            obtain ⟨found, ho, hc⟩ := ihl _ _ h
            exact ⟨inner ++ found, by simp [ho],
              Collects.inline selectionSet rest inner found (ih _ _ hr) hc⟩
    intro selections found h
    simp only [getFieldNodeByNameInSelectionSet] at h
    obtain ⟨found2, ho, hc⟩ := key selections [] found h
    simp only [List.nil_append] at ho
    rw [ho]
    exact hc

theorem collects_unique (fragments : FragmentTable) (fieldName : String)
    (selections found found2 : List Selection)
    (h1 : Collects fragments fieldName selections found)
    (h2 : Collects fragments fieldName selections found2) : found = found2 := by
  obtain ⟨N1, hN1⟩ := collects_complete fragments fieldName selections found h1
  obtain ⟨N2, hN2⟩ := collects_complete fragments fieldName selections found2 h2
  have a := hN1 (max N1 N2) (le_max_left _ _) []
  have b := hN2 (max N1 N2) (le_max_right _ _) []
  rw [a] at b
  simpa using b

theorem collects_exists_of_rank (fragments : FragmentTable) (fieldName : String)
    (rank : String → Nat)
    (hrank : ∀ name body, fragments name = some body →
      ∀ m ∈ spreadsOf body, (fragments m).isSome = true → rank m < rank name) :
    ∀ (k : Nat) (n : Nat) (selections : List Selection), sizeOf selections ≤ n →
      (∀ m ∈ spreadsOf selections, (fragments m).isSome = true → rank m < k) →
      ∃ found, Collects fragments fieldName selections found := by
  intro k
  induction k using Nat.strong_induction_on with
  | _ k ihk =>
    intro n
    induction n with
    | zero =>
      intro selections hsize _
      cases selections with
      | nil => exact ⟨[], Collects.nil⟩
      | cons s rest => simp at hsize
    | succ n ihn =>
      intro selections hsize hsp
      cases selections with
      | nil => exact ⟨[], Collects.nil⟩
      | cons s rest =>
        have hrest : ∀ m ∈ spreadsOf rest, (fragments m).isSome = true → rank m < k := by
          intro m hm
          exact hsp m (by simp [spreadsOf, hm])
        have hsz : sizeOf rest ≤ n := by
          simp only [List.cons.sizeOf_spec] at hsize
          omega
        obtain ⟨found, hfound⟩ := ihn rest hsz hrest
        cases s with
        | field name arguments sub =>
          by_cases hname : name = fieldName
          · exact ⟨_, Collects.fieldNamed name arguments sub rest found hname hfound⟩
          · exact ⟨_, Collects.fieldOther name arguments sub rest found hname hfound⟩
        | fragmentSpread name =>
          cases hf : fragments name with
          | none => exact ⟨_, Collects.spreadMissing name rest found hf hfound⟩
          | some body =>
            have hlt : rank name < k :=
              hsp name (by simp [spreadsOf, Selection.spreads]) (by simp [hf])
            obtain ⟨inner, hinner⟩ :=
              ihk (rank name) hlt (sizeOf body) body (le_refl _) (hrank name body hf)
            exact ⟨_, Collects.spreadFound name body rest inner found hf hinner hfound⟩
        | inlineFragment selectionSet =>
          have hsz2 : sizeOf selectionSet ≤ n := by
            simp only [List.cons.sizeOf_spec, Selection.inlineFragment.sizeOf_spec] at hsize
            omega
          have hsp2 : ∀ m ∈ spreadsOf selectionSet, (fragments m).isSome = true → rank m < k := by
            intro m hm
            exact hsp m (by simp [spreadsOf, Selection.spreads, hm])
          obtain ⟨inner, hinner⟩ := ihn selectionSet hsz2 hsp2
          exact ⟨_, Collects.inline selectionSet rest inner found hinner hfound⟩

theorem collects_exists (fragments : FragmentTable) (fieldName : String)
    (selections : List Selection) (h : Acyclic fragments) :
    ∃ found, Collects fragments fieldName selections found := by
  obtain ⟨rank, hrank⟩ := h
  have hfin : ∃ k, ∀ m ∈ spreadsOf selections, rank m < k := by
    generalize spreadsOf selections = names
    induction names with
    | nil => exact ⟨0, fun m hm => by simp at hm⟩
    | cons a rest ih =>
      obtain ⟨k, hk⟩ := ih
      refine ⟨max k (rank a + 1), fun m hm => ?_⟩
      rcases List.mem_cons.mp hm with e | e
      · subst e; omega
      · have := hk m e; omega
  obtain ⟨k, hk⟩ := hfin
  exact collects_exists_of_rank fragments fieldName rank hrank k (sizeOf selections) selections
    (le_refl _) (fun m hm _ => hk m hm)

/-- C18: for a fragment table whose references are acyclic,
getFieldNodeByNameInSelectionSet returns (every call with enough fuel gives the
same list), and the list holds exactly the Field selections named fieldName
reachable through inline fragments and spreads of fragments of the table, in
depth-first document order; a spread of a missing fragment adds nothing and the
sub-selections of fields are not searched. -/
theorem getFieldNodeByName_contract (fragments : FragmentTable) (fieldName : String)
    (selections : List Selection) (h : Acyclic fragments) :
    ∃ found, Collects fragments fieldName selections found ∧
      (∃ N, ∀ fuel, N ≤ fuel →
        getFieldNodeByNameInSelectionSet fragments fieldName fuel selections = some found) ∧
      (∀ fuel found2,
        getFieldNodeByNameInSelectionSet fragments fieldName fuel selections = some found2 →
        found2 = found) := by
  obtain ⟨found, hfound⟩ := collects_exists fragments fieldName selections h
  refine ⟨found, hfound, ?_, ?_⟩
  · obtain ⟨N, hN⟩ := collects_complete fragments fieldName selections found hfound
    refine ⟨N + 1, fun fuel hf => ?_⟩
    obtain ⟨fuel1, rfl⟩ : ∃ fuel1, fuel = fuel1 + 1 := ⟨fuel - 1, by omega⟩
    have := hN fuel1 (by omega) []
    simpa [getFieldNodeByNameInSelectionSet] using this
  · intro fuel found2 h2
    exact collects_unique fragments fieldName selections found2 found
      (collects_sound fragments fieldName fuel selections found2 h2) hfound

theorem exampleFragments_acyclic : Acyclic exampleFragments := by
  refine ⟨fun name => if name = "A" then 1 else 0, ?_⟩
  intro name body hbody m hm hsome
  unfold exampleFragments at hbody
  by_cases hA : name = "A"
  · simp only [hA, if_true, Option.some.injEq] at hbody
    subst hbody
    simp [spreadsOf, Selection.spreads] at hm
    subst hm
    simp [hA]
  · by_cases hB : name = "B"
    · simp only [hB, if_true, Option.some.injEq] at hbody
      simp at hbody
      subst hbody
      simp [spreadsOf, Selection.spreads] at hm
    · simp [hA, hB] at hbody

theorem getFieldNodeByName_contract_witness :
    Acyclic exampleFragments ∧
    ∃ found, Collects exampleFragments "group" exampleSelections found ∧
      (∃ N, ∀ fuel, N ≤ fuel →
        getFieldNodeByNameInSelectionSet exampleFragments "group" fuel exampleSelections
          = some found) ∧
      (∀ fuel found2,
        getFieldNodeByNameInSelectionSet exampleFragments "group" fuel exampleSelections
          = some found2 → found2 = found) :=
  ⟨exampleFragments_acyclic,
   getFieldNodeByName_contract exampleFragments "group" exampleSelections exampleFragments_acyclic⟩

/-- The walk on the example: the fields of A, of B inside A, and the last field,
in document order; the field nested under `nodes` is not found. -/
theorem getFieldNodeByName_example :
    getFieldNodeByNameInSelectionSet exampleFragments "group" 4 exampleSelections =
      some [.field "group" [⟨"field", "a"⟩] [], .field "group" [⟨"field", "b"⟩] [],
            .field "group" [⟨"field", "c"⟩] []] := by
  rfl

/-! ## Theorems: the link resolver -/

theorem splitDots_ne_nil (cs : List Char) : splitDots cs ≠ [] := by
  induction cs with
  | nil => simp [splitDots]
  | cons c cs ih =>
    unfold splitDots
    split
    · simp
    · split <;> simp

theorem splitDots_append (s rest seg : List Char) (segs : List (List Char))
    (hs : '.' ∉ s) (hrest : splitDots rest = seg :: segs) :
    splitDots (s ++ rest) = (s ++ seg) :: segs := by
  induction s with
  | nil => simpa using hrest
  | cons c s ih =>
    have hc : c ≠ '.' := fun e => hs (by simp [e])
    have hs2 : '.' ∉ s := fun h => hs (List.mem_cons_of_mem _ h)
    rw [List.cons_append, splitDots, if_neg hc, ih hs2]
    rfl

theorem splitDots_joinDots (segments : List (List Char)) (hne : segments ≠ [])
    (hdot : ∀ s ∈ segments, '.' ∉ s) : splitDots (joinDots segments) = segments := by
  induction segments with
  | nil => exact absurd rfl hne
  | cons s rest ih =>
    cases rest with
    | nil =>
      have := splitDots_append s [] [] [] (hdot s (List.mem_cons_self _ _)) rfl
      simpa [joinDots] using this
    | cons t rest =>
      have ih2 := ih (by simp) (fun x hx => hdot x (List.mem_cons_of_mem _ hx))
      have hstep : splitDots ('.' :: joinDots (t :: rest)) = [] :: (t :: rest) := by
        rw [splitDots, if_pos rfl, ih2]
      have := splitDots_append s _ [] (t :: rest) (hdot s (List.mem_cons_self _ _)) hstep
      simpa [joinDots] using this

/-- Splitting the dotted path of dot-free segments gives the segments back. -/
theorem split_dottedPath (keys : List String) (hne : keys ≠ [])
    (hdot : ∀ k ∈ keys, '.' ∉ k.toList) : split (dottedPath keys) = keys := by
  unfold split dottedPath
  have h : splitDots (joinDots (keys.map String.toList)) = keys.map String.toList := by
    apply splitDots_joinDots
    · simpa using hne
    · intro s hs
      obtain ⟨k, hk, rfl⟩ := List.mem_map.mp hs
      exact hdot k hk
  show (splitDots (String.mk (joinDots (keys.map String.toList))).toList).map String.mk = keys
  rw [show (String.mk (joinDots (keys.map String.toList))).toList
        = joinDots (keys.map String.toList) from rfl, h, List.map_map]
  conv => rhs; rw [← List.map_id keys]
  apply List.map_congr_left
  intro k _
  rfl

theorem foldr_enumFrom_nest (operator : Filter → Filter) (init : Filter) (last : Int) :
    ∀ (keys : List String) (n : Nat), keys ≠ [] → last = (n : Int) + (keys.length : Int) - 1 →
      (keys.enumFrom n).foldr
        (fun p acc => Filter.object p.2 (if (p.1 : Int) = last then operator acc else acc)) init
        = nestKeys keys (operator init)
  | [], _, h, _ => absurd rfl h
  | [k], n, _, hl => by
    simp only [List.length_singleton] at hl
    have : (n : Int) = last := by omega
    simp [List.enumFrom, nestKeys, this]
  | k :: k2 :: rest, n, _, hl => by
    have hl2 : last = ((n + 1 : Nat) : Int) + ((k2 :: rest).length : Int) - 1 := by
      simp only [List.length_cons] at hl ⊢
      push_cast at hl ⊢
      omega
    have ih := foldr_enumFrom_nest operator init last (k2 :: rest) (n + 1) (by simp) hl2
    have hne : ¬ ((n : Int) = last) := by
      simp only [List.length_cons] at hl
      push_cast at hl
      omega
    rw [List.enumFrom_cons, List.foldr_cons, ih]
    simp [nestKeys, hne]

theorem split_ne_nil (path : String) : split path ≠ [] := by
  unfold split
  simpa using splitDots_ne_nil path.toList

/-- The filter stored by link is the nesting of the operator object along the
segments of the path. -/
theorem linkFilter_eq_nestKeys (path : String) (fieldValue : JSValue) :
    linkFilter path fieldValue = nestKeys (split path) (operatorOf fieldValue) := by
  unfold linkFilter
  simp only [List.enum]
  rw [foldr_enumFrom_nest _ _ _ (split path) 0 (split_ne_nil path) (by simp)]
  unfold operatorOf
  cases fieldValue.isArray <;> simp [oneOf, equals]

/-- A link by a path other than "id" with a resolved value that is neither null
nor the empty array runs one query and returns its projected answer. -/
theorem link_runs_query (getValueAt : Node → String → JSValue) (options : LinkOptions)
    (fieldConfig : FieldConfig) (context : Context Node) (info : Info) (path : String)
    (hby : options.by_ = some path) (hid : path ≠ "id")
    (hnull : (resolveFieldValue options fieldConfig context info).isNullish = false)
    (hempty : isEmptyArray (resolveFieldValue options fieldConfig context info) = false) :
    link getValueAt options fieldConfig context info =
      .ok { value := linkProject getValueAt path (linkReturnType options info)
              (resolveFieldValue options fieldConfig context info)
              (context.nodeModel.runQuery (linkQuery options context info path
                (resolveFieldValue options fieldConfig context info)))
            stats := (linkQuery options context info path
              (resolveFieldValue options fieldConfig context info)).stats
            calls := [.runQuery (linkQuery options context info path
              (resolveFieldValue options fieldConfig context info))] } := by
  have hne : ¬ (options.by_ = some "id") := by
    rw [hby]
    intro h
    exact hid (Option.some.inj h)
  unfold link
  simp only [hnull, hempty, hne, if_false, Bool.false_eq_true]
  rw [hby]

/-- C13: for a link by the dotted path k1.k2.….kn (not "id") and a resolved value
v that is neither null nor the empty array, the filter sent to the store is the
tree nested along k1, …, kn in order with the operator object innermost: {in: v}
when v is an array and {eq: v} otherwise. -/
theorem link_filter_contract (getValueAt : Node → String → JSValue) (options : LinkOptions)
    (fieldConfig : FieldConfig) (context : Context Node) (info : Info) (keys : List String)
    (hne : keys ≠ []) (hdot : ∀ k ∈ keys, '.' ∉ k.toList)
    (hby : options.by_ = some (dottedPath keys)) (hid : dottedPath keys ≠ "id")
    (hnull : (resolveFieldValue options fieldConfig context info).isNullish = false)
    (hempty : isEmptyArray (resolveFieldValue options fieldConfig context info) = false) :
    ∃ (outcome : LinkOutcome Node) (query : Query),
      link getValueAt options fieldConfig context info = .ok outcome ∧
      outcome.calls = [.runQuery query] ∧
      query.filter = nestKeys keys (operatorOf (resolveFieldValue options fieldConfig context info)) ∧
      ((resolveFieldValue options fieldConfig context info).isArray = true →
        query.filter = nestKeys keys
          (.object "in" (.value (resolveFieldValue options fieldConfig context info)))) ∧
      ((resolveFieldValue options fieldConfig context info).isArray = false →
        query.filter = nestKeys keys
          (.object "eq" (.value (resolveFieldValue options fieldConfig context info)))) := by
  refine ⟨_, _, link_runs_query getValueAt options fieldConfig context info _ hby hid hnull hempty,
    rfl, ?_, ?_, ?_⟩
  · show linkFilter _ _ = _
    rw [linkFilter_eq_nestKeys, split_dottedPath keys hne hdot]
  · intro harr
    show linkFilter _ _ = _
    rw [linkFilter_eq_nestKeys, split_dottedPath keys hne hdot, operatorOf, if_pos harr]
  · intro harr
    show linkFilter _ _ = _
    rw [linkFilter_eq_nestKeys, split_dottedPath keys hne hdot, operatorOf, harr]
    simp

theorem link_filter_contract_witness :
    (["frontmatter", "author", "slug"] ≠ ([] : List String)) ∧
    (dottedPath ["frontmatter", "author", "slug"] ≠ "id") ∧
    ∃ (outcome : LinkOutcome PostNode) (query : Query),
      link PostNode.getValueAt (linkBy "frontmatter.author.slug") ⟨none⟩
        (exampleContext none (.str "a")) (exampleInfo (.named "Author")) = .ok outcome ∧
      outcome.calls = [.runQuery query] ∧
      query.filter = nestKeys ["frontmatter", "author", "slug"]
        (operatorOf (resolveFieldValue (linkBy "frontmatter.author.slug") ⟨none⟩
          (exampleContext none (.str "a")) (exampleInfo (.named "Author")))) ∧
      ((resolveFieldValue (linkBy "frontmatter.author.slug") ⟨none⟩
          (exampleContext none (.str "a")) (exampleInfo (.named "Author"))).isArray = true →
        query.filter = nestKeys ["frontmatter", "author", "slug"]
          (.object "in" (.value (resolveFieldValue (linkBy "frontmatter.author.slug") ⟨none⟩
            (exampleContext none (.str "a")) (exampleInfo (.named "Author")))))) ∧
      ((resolveFieldValue (linkBy "frontmatter.author.slug") ⟨none⟩
          (exampleContext none (.str "a")) (exampleInfo (.named "Author"))).isArray = false →
        query.filter = nestKeys ["frontmatter", "author", "slug"]
          (.object "eq" (.value (resolveFieldValue (linkBy "frontmatter.author.slug") ⟨none⟩
            (exampleContext none (.str "a")) (exampleInfo (.named "Author")))))) :=
  ⟨by decide, by decide,
   link_filter_contract PostNode.getValueAt (linkBy "frontmatter.author.slug") ⟨none⟩
     (exampleContext none (.str "a")) (exampleInfo (.named "Author"))
     ["frontmatter", "author", "slug"] (by decide) (by decide) (by decide) (by decide) rfl rfl⟩

theorem linkProject_not_list (getValueAt : Node → String → JSValue) (path : String)
    (returnType : GraphQLType) (fieldValue : JSValue) (result : QueryResult Node)
    (h : returnType.isList = false) :
    linkProject getValueAt path returnType fieldValue result = .ofQueryResult result := by
  unfold linkProject
  rw [h]

theorem linkReturnType_isList (options : LinkOptions) (info : Info) :
    (linkReturnType options info).isList = isListType (effectiveReturnType options info) := by
  unfold linkReturnType effectiveReturnType
  cases options.type with
  | none =>
    simp only [Option.getD_none]
    cases info.returnType with
    | named name => rfl
    | list t => rfl
    | nonNull t => cases t <;> rfl
  | some type =>
    simp only [Option.getD_some]
    cases type with
    | named name => rfl
    | list t => rfl
    | nonNull t => cases t <;> rfl

/-- C14 (as stated, refuted): with the type option [Post] on a field declared
with the non-list type Author the store is queried with firstOnly = false, and
with the type option Post on a field declared with the list type [Author] it is
queried with firstOnly = true and the single node is returned. -/
theorem link_firstOnly_counterexample :
    isListType (exampleInfo (.named "Author")).returnType = false ∧
    (link PostNode.getValueAt (linkByOfType "slug" (.list (.named "Post"))) ⟨none⟩
        (exampleContext none (.str "a")) (exampleInfo (.named "Author"))).toOption.map
      (fun outcome => outcome.calls.map fun call =>
        match call with
        | .runQuery query => some query.firstOnly
        | _ => none)
      = some [some false] ∧
    isListType (exampleInfo (.list (.named "Author"))).returnType = true ∧
    (link PostNode.getValueAt (linkByOfType "slug" (.named "Post")) ⟨none⟩
        (exampleContext none (.str "a")) (exampleInfo (.list (.named "Author")))).toOption.map
      (fun outcome =>
        (outcome.calls.map fun call =>
          match call with
          | .runQuery query => some query.firstOnly
          | _ => none,
         match outcome.value with
          | .node n => some n.id
          | _ => none))
      = some ([some true], some 1) := by
  decide

/-- C14 (amended): a link not by "id" with a resolved value that is neither null
nor the empty array, scalar or array alike, queries the store with
firstOnly = true exactly when the return type of the link (the type option when
given, the declared return type of the field otherwise) is not a list type (a
list or a non-null list); with such a non-list type it returns the answer of the
store unchanged, which is a node or null and no collection when the store
answers a firstOnly query with at most one node. -/
theorem link_firstOnly_contract (getValueAt : Node → String → JSValue) (options : LinkOptions)
    (fieldConfig : FieldConfig) (context : Context Node) (info : Info) (path : String)
    (hby : options.by_ = some path) (hid : path ≠ "id")
    (hnull : (resolveFieldValue options fieldConfig context info).isNullish = false)
    (hempty : isEmptyArray (resolveFieldValue options fieldConfig context info) = false) :
    ∃ (outcome : LinkOutcome Node) (query : Query),
      link getValueAt options fieldConfig context info = .ok outcome ∧
      outcome.calls = [.runQuery query] ∧
      (query.firstOnly = true ↔ isListType (effectiveReturnType options info) = false) ∧
      (options.type = none → (query.firstOnly = true ↔ isListType info.returnType = false)) ∧
      (∀ type, options.type = some type → (query.firstOnly = true ↔ isListType type = false)) ∧
      (isListType (effectiveReturnType options info) = false →
        outcome.value = .ofQueryResult (context.nodeModel.runQuery query)) ∧
      ((∀ q : Query, q.firstOnly = true → ∀ ns, context.nodeModel.runQuery q ≠ .nodes ns) →
        isListType (effectiveReturnType options info) = false →
        outcome.value = .null ∨ ∃ n, outcome.value = .node n) := by
  have hfirst : (linkQuery options context info path
      (resolveFieldValue options fieldConfig context info)).firstOnly = true ↔
      isListType (effectiveReturnType options info) = false := by
    rw [← linkReturnType_isList]
    simp [linkQuery]
  refine ⟨_, _, link_runs_query getValueAt options fieldConfig context info _ hby hid hnull hempty,
    rfl, hfirst, ?_, ?_, ?_, ?_⟩
  · intro h
    have e : effectiveReturnType options info = info.returnType := by
      simp [effectiveReturnType, h]
    rw [← e]
    exact hfirst
  · intro type h
    have e : effectiveReturnType options info = type := by
      simp [effectiveReturnType, h]
    rw [← e]
    exact hfirst
  · intro h
    rw [← linkReturnType_isList] at h
    exact linkProject_not_list _ _ _ _ _ h
  · intro hstore h
    have h2 := h
    rw [← linkReturnType_isList] at h2
    show linkProject _ _ _ _ _ = _ ∨ ∃ n, linkProject _ _ _ _ _ = _
    rw [linkProject_not_list _ _ _ _ _ h2]
    have hq := hfirst.mpr h
    cases hr : context.nodeModel.runQuery (linkQuery options context info path
        (resolveFieldValue options fieldConfig context info)) with
    | null => left; rfl
    | node n => right; exact ⟨n, rfl⟩
    | nodes ns => exact absurd hr (hstore _ hq ns)

theorem link_firstOnly_contract_witness :
    ("slug" ≠ "id") ∧
    ∃ (outcome : LinkOutcome PostNode) (query : Query),
      link PostNode.getValueAt (linkByOfType "slug" (.nonNull (.named "Post"))) ⟨none⟩
        (exampleContext none (.arr 0 [.str "a", .str "b"])) (exampleInfo (.list (.named "Author")))
        = .ok outcome ∧
      outcome.calls = [.runQuery query] ∧
      (query.firstOnly = true ↔
        isListType (effectiveReturnType (linkByOfType "slug" (.nonNull (.named "Post")))
          (exampleInfo (.list (.named "Author")))) = false) ∧
      ((linkByOfType "slug" (.nonNull (.named "Post"))).type = none →
        (query.firstOnly = true ↔
          isListType (exampleInfo (.list (.named "Author"))).returnType = false)) ∧
      (∀ type, (linkByOfType "slug" (.nonNull (.named "Post"))).type = some type →
        (query.firstOnly = true ↔ isListType type = false)) ∧
      (isListType (effectiveReturnType (linkByOfType "slug" (.nonNull (.named "Post")))
          (exampleInfo (.list (.named "Author")))) = false →
        outcome.value = .ofQueryResult
          ((exampleContext none (.arr 0 [.str "a", .str "b"])).nodeModel.runQuery query)) ∧
      ((∀ q : Query, q.firstOnly = true →
          ∀ ns, (exampleContext none (.arr 0 [.str "a", .str "b"])).nodeModel.runQuery q
            ≠ .nodes ns) →
        isListType (effectiveReturnType (linkByOfType "slug" (.nonNull (.named "Post")))
          (exampleInfo (.list (.named "Author")))) = false →
        outcome.value = .null ∨ ∃ n, outcome.value = .node n) :=
  ⟨by decide,
   link_firstOnly_contract PostNode.getValueAt (linkByOfType "slug" (.nonNull (.named "Post")))
     ⟨none⟩ (exampleContext none (.arr 0 [.str "a", .str "b"]))
     (exampleInfo (.list (.named "Author"))) "slug" rfl (by decide) rfl rfl⟩

/-- C15: for a link (not by "id") with a list return type whose resolved value is
a non-empty array vs and whose store query returns the nodes rs, link returns an
array as long as vs whose i-th element is the first node of rs whose value at
the link path is strictly equal to vs[i], and holds no node when there is none. -/
theorem link_projection_contract (getValueAt : Node → String → JSValue) (options : LinkOptions)
    (fieldConfig : FieldConfig) (context : Context Node) (info : Info) (path : String)
    (ref : Nat) (vs : List JSValue) (rs : List Node)
    (hby : options.by_ = some path) (hid : path ≠ "id")
    (hlist : (linkReturnType options info).isList = true)
    (hval : resolveFieldValue options fieldConfig context info = .arr ref vs) (hvs : vs ≠ [])
    (hrs : context.nodeModel.runQuery (linkQuery options context info path (.arr ref vs))
      = .nodes rs) :
    ∃ (outcome : LinkOutcome Node) (elems : List (Option Node)),
      link getValueAt options fieldConfig context info = .ok outcome ∧
      outcome.value = .array elems ∧
      elems.length = vs.length ∧
      ∀ i : Nat, ∀ hi : i < vs.length,
        elems[i]? = some (rs.find? fun obj => strictEquals (getValueAt obj path) vs[i]) := by
  have hnull : (resolveFieldValue options fieldConfig context info).isNullish = false := by
    rw [hval]; rfl
  have hempty : isEmptyArray (resolveFieldValue options fieldConfig context info) = false := by
    rw [hval]
    cases vs with
    | nil => exact absurd rfl hvs
    | cons v rest => rfl
  refine ⟨_, vs.map fun value => rs.find? fun obj => strictEquals (getValueAt obj path) value,
    link_runs_query getValueAt options fieldConfig context info _ hby hid hnull hempty, ?_, ?_, ?_⟩
  · show linkProject _ _ _ _ _ = _
    rw [hval, hrs]
    unfold linkProject
    rw [hlist]
  · simp
  · intro i hi
    simp [List.getElem?_map, List.getElem?_eq_getElem hi]

theorem link_projection_contract_witness :
    ("slug" ≠ "id") ∧ ([JSValue.str "b", .str "zzz", .str "a", .str "b"] ≠ []) ∧
    ∃ (outcome : LinkOutcome PostNode) (elems : List (Option PostNode)),
      link PostNode.getValueAt (linkBy "slug") ⟨none⟩
        (exampleContext none (.arr 0 [.str "b", .str "zzz", .str "a", .str "b"]))
        (exampleInfo (.list (.named "Post"))) = .ok outcome ∧
      outcome.value = .array elems ∧
      elems.length = [JSValue.str "b", .str "zzz", .str "a", .str "b"].length ∧
      ∀ i : Nat, ∀ hi : i < [JSValue.str "b", .str "zzz", .str "a", .str "b"].length,
        elems[i]? = some (postNodes.find? fun obj =>
          strictEquals (PostNode.getValueAt obj "slug")
            ([JSValue.str "b", .str "zzz", .str "a", .str "b"][i])) :=
  ⟨by decide, by simp,
   link_projection_contract PostNode.getValueAt (linkBy "slug") ⟨none⟩
     (exampleContext none (.arr 0 [.str "b", .str "zzz", .str "a", .str "b"]))
     (exampleInfo (.list (.named "Post"))) "slug" 0 [.str "b", .str "zzz", .str "a", .str "b"]
     postNodes rfl (by decide) rfl rfl (by simp) rfl⟩

/-- The projection on the example: order, the duplicate and the miss are kept. -/
theorem link_projection_example :
    (link PostNode.getValueAt (linkBy "slug") ⟨none⟩
        (exampleContext none (.arr 0 [.str "b", .str "zzz", .str "a", .str "b"]))
        (exampleInfo (.list (.named "Post")))).toOption.map
      (fun outcome => match outcome.value with
        | .array elems => elems.map fun e => e.map fun n => n.id
        | _ => [])
      = some [some 2, none, some 1, some 2] := by
  decide

/-- C16: a link by anything but "id" whose resolved value is the empty array
returns that array, calls no store operation and leaves the counters as they
are. -/
theorem link_empty_array_contract (getValueAt : Node → String → JSValue) (options : LinkOptions)
    (fieldConfig : FieldConfig) (context : Context Node) (info : Info) (ref : Nat)
    (hid : options.by_ ≠ some "id")
    (hval : resolveFieldValue options fieldConfig context info = .arr ref []) :
    link getValueAt options fieldConfig context info =
      .ok { value := .value (.arr ref []), stats := context.stats, calls := [] } := by
  unfold link
  rw [hval]
  simp [JSValue.isNullish, isEmptyArray, hid]

theorem link_empty_array_contract_witness :
    ((linkBy "slug").by_ ≠ some "id") ∧
    link PostNode.getValueAt (linkBy "slug") ⟨none⟩ (exampleContext none (.arr 7 []))
        (exampleInfo (.list (.named "Post"))) =
      .ok { value := .value (.arr 7 [])
            stats := (exampleContext none (.arr 7 [])).stats
            calls := [] } :=
  ⟨by decide,
   link_empty_array_contract PostNode.getValueAt (linkBy "slug") ⟨none⟩
     (exampleContext none (.arr 7 [])) (exampleInfo (.list (.named "Post"))) 7 (by decide) rfl⟩

/-! ## Theorems: the path-link resolver -/

mutual
theorem resolveValue_paths (resolve : JSValue → Except String (Option Node))
    (lookup : String → Option Node) (hres : ∀ path, resolve (.str path) = .ok (lookup path)) :
    ∀ (v : JSValue), allPaths v = true →
      resolveValue resolve v = .ok (matchedFiles lookup v)
  | .str path, _ => by simp [resolveValue, matchedFiles, hres, Except.map]
  | .arr _ elems, h => by
    have h2 : allPathsIn elems = true := by simpa [allPaths] using h
    simp [resolveValue, matchedFiles, resolveValues_paths resolve lookup hres elems h2,
      Except.map]
  | .undefined, h => by simp [allPaths] at h
  | .null, h => by simp [allPaths] at h
  | .bool _, h => by simp [allPaths] at h
  | .num _, h => by simp [allPaths] at h
  | .date _ _ _, h => by simp [allPaths] at h
  | .obj _, h => by simp [allPaths] at h
theorem resolveValues_paths (resolve : JSValue → Except String (Option Node))
    (lookup : String → Option Node) (hres : ∀ path, resolve (.str path) = .ok (lookup path)) :
    ∀ (vs : List JSValue), allPathsIn vs = true →
      resolveValues resolve vs = .ok (matchedFilesIn lookup vs)
  | [], _ => by simp [resolveValues, matchedFilesIn]
  | v :: rest, h => by
    have h2 : allPaths v = true ∧ allPathsIn rest = true := by simpa [allPathsIn] using h
    simp [resolveValues, matchedFilesIn, resolveValue_paths resolve lookup hres v h2.1,
      resolveValues_paths resolve lookup hres rest h2.2]
end

/-- C17 (as stated, refuted): when findRootNodeAncestor returns null, fileByPath
raises for the path "a.png" although the store operations return; it also raises
for an array holding null next to a path although the ancestor is found. -/
theorem fileByPath_raises_counterexample :
    fileByPath postFields appendPath (linkBy "id") ⟨none⟩
        (⟨2, "b", "/site/posts", "/site/posts/b.md"⟩ : PostNode)
        (exampleContext none (.str "a.png")) (exampleInfo (.named "File"))
      = .error "TypeError: parentFileNode is null" ∧
    fileByPath postFields appendPath (linkBy "id") ⟨none⟩
        (⟨2, "b", "/site/posts", "/site/posts/b.md"⟩ : PostNode)
        (exampleContext (some ⟨1, "a", "/site/img", "/site/img/index.md"⟩)
          (.arr 0 [.str "a.png", .null]))
        (exampleInfo (.list (.named "File")))
      = .error "TypeError: the path argument must be a string" := by
  constructor <;> rfl

/-- C17 (amended): when the store operations return, findRootNodeAncestor finds
a File ancestor and every path value of the non-null resolved value is a string,
fileByPath does not raise and returns, for each path value in the original order
and nesting, the matched File record, or no record when none matches. -/
theorem fileByPath_paths_contract (fields : FileFields Node)
    (fileLinkPath : String → String → String) (options : LinkOptions)
    (fieldConfig : FieldConfig) (source parent : Node) (context : Context Node) (info : Info)
    (hnull : (resolveFieldValue options fieldConfig context info).isNullish = false)
    (hparent : context.nodeModel.findRootNodeAncestor source
      (fun node => fields.internalType node == some "File") = some parent)
    (hpaths : allPaths (resolveFieldValue options fieldConfig context info) = true) :
    fileByPath fields fileLinkPath options fieldConfig source context info =
      .ok (some (matchedFiles (matchedFile fields fileLinkPath context parent)
        (resolveFieldValue options fieldConfig context info))) := by
  unfold fileByPath
  simp only [hnull, hparent, Bool.false_eq_true, if_false]
  rw [resolveValue_paths (findLinkedFileNode fields fileLinkPath context (some parent))
    (matchedFile fields fileLinkPath context parent) (fun path => rfl) _ hpaths]
  rfl

theorem fileByPath_paths_contract_witness :
    (allPaths (resolveFieldValue (linkBy "id") ⟨none⟩
      (exampleContext (some ⟨1, "a", "/site/img", "/site/img/index.md"⟩)
        (.arr 0 [.str "a.png", .str "missing.png"]))
      (exampleInfo (.list (.named "File")))) = true) ∧
    fileByPath postFields appendPath (linkBy "id") ⟨none⟩
        (⟨2, "b", "/site/posts", "/site/posts/b.md"⟩ : PostNode)
        (exampleContext (some ⟨1, "a", "/site/img", "/site/img/index.md"⟩)
          (.arr 0 [.str "a.png", .str "missing.png"]))
        (exampleInfo (.list (.named "File"))) =
      .ok (some (matchedFiles
        (matchedFile postFields appendPath
          (exampleContext (some ⟨1, "a", "/site/img", "/site/img/index.md"⟩)
            (.arr 0 [.str "a.png", .str "missing.png"]))
          ⟨1, "a", "/site/img", "/site/img/index.md"⟩)
        (resolveFieldValue (linkBy "id") ⟨none⟩
          (exampleContext (some ⟨1, "a", "/site/img", "/site/img/index.md"⟩)
            (.arr 0 [.str "a.png", .str "missing.png"]))
          (exampleInfo (.list (.named "File")))))) :=
  ⟨rfl,
   fileByPath_paths_contract postFields appendPath (linkBy "id") ⟨none⟩
     ⟨2, "b", "/site/posts", "/site/posts/b.md"⟩ ⟨1, "a", "/site/img", "/site/img/index.md"⟩
     (exampleContext (some ⟨1, "a", "/site/img", "/site/img/index.md"⟩)
       (.arr 0 [.str "a.png", .str "missing.png"]))
     (exampleInfo (.list (.named "File"))) rfl rfl rfl⟩

/-- The resolver on the example: the first path matches the third record and the
second path matches none. -/
theorem fileByPath_example :
    fileByPath postFields appendPath (linkBy "id") ⟨none⟩
        (⟨2, "b", "/site/posts", "/site/posts/b.md"⟩ : PostNode)
        (exampleContext (some ⟨1, "a", "/site/img", "/site/img/index.md"⟩)
          (.arr 0 [.str "a.png", .str "missing.png"]))
        (exampleInfo (.list (.named "File"))) =
      .ok (some (.array [.file (some ⟨3, "a", "/site/img", "/site/img/a.png"⟩), .file none])) := by
  rfl

end Resolvers
